import Mathlib

/-!
# TradingAlgo: verification of the portfolio-accounting and scoring engine

A shallow embedding of the core of the TradingAlgo backtesting framework
(src/portfolio.py, src/algorithim.py, src/stock.py, src/tradelogger.py,
src/algorithims/momentum.py, src/algorithims/momentumFCF.py), with theorems
settling the specification's claims about it.

Conventions of the embedding:
* Calendar dates are integers (days); the Python code normalizes timestamps
  to day granularity, so a date is just its day number.
* Python floats are modelled as rationals; the float-specific statistics
  built on `sqrt` are modelled over the reals.
* A Python method that can raise (for example multiplying a share count
  with a `None` price raises a `TypeError`, and float floor-division by
  zero raises a `ZeroDivisionError`) is modelled as returning `Option`,
  with `none` for the raised exception.
* Python dicts keyed by ticker are modelled as insertion-ordered
  association lists.
-/

namespace TradingAlgo

/-! ## Stock and as-of price lookup (src/stock.py) -/

/-- A stock: a ticker symbol together with its recorded daily close-price
history, as (date, price) pairs. Models the parts of `class Stock`
(src/stock.py) the ledger and scoring code read. -/
structure Stock where
  ticker : String
  price_history : List (ℤ × ℚ)
deriving DecidableEq, Repr

/-- The last recorded entry of a (date, value) series at or before `d`:
the series entries whose date is `≤ d`, reduced to the one with the
greatest date. Returns `none` when no entry is at or before `d`. -/
def lastAtOrBefore (h : List (ℤ × ℚ)) (d : ℤ) : Option (ℤ × ℚ) :=
  (h.filter (fun e => e.1 ≤ d)).foldl
    (fun acc e =>
      match acc with
      | none => some e
      | some b => if b.1 ≤ e.1 then some e else some b)
    none

/-- `Stock.get_price_at_date` (src/stock.py lines 69-92): try the exact
date, and on a miss fall back to the most recent recorded date at or
before it; `none` when the history has no entry at or before the date
(the Python code returns `None`). -/
def Stock.get_price_at_date (s : Stock) (d : ℤ) : Option ℚ :=
  match (s.price_history.find? (fun e => e.1 = d)).map (fun e => e.2) with
  | some p => some p
  | none => (lastAtOrBefore s.price_history d).map (fun e => e.2)

/-- A stock whose every recorded price is positive — the data-model
invariant of the spec (a zero or negative price is invalid data). -/
def StockOK (s : Stock) : Prop :=
  ∀ e ∈ s.price_history, 0 < e.2

instance (s : Stock) : Decidable (StockOK s) := by
  unfold StockOK; infer_instance

/-! ## Trade log (src/tradelogger.py) -/

/-- One logged trade, as built by `log_trade` / `class tradeLog`
(src/tradelogger.py): action ("BUY"/"SELL"), ticker, executed quantity,
date, and the price looked up at logging time (which can be `None`). -/
structure TradeRec where
  action : String
  ticker : String
  quantity : ℚ
  date : ℤ
  price : Option ℚ
deriving DecidableEq, Repr

/-- `log_trade(action, stock, quantity, date)` (src/tradelogger.py):
records the trade with the stock's as-of price at the date. -/
def log_trade (action : String) (s : Stock) (q : ℚ) (d : ℤ) : TradeRec :=
  ⟨action, s.ticker, q, d, s.get_price_at_date d⟩

/-! ## The ledger (class Portfolio, src/portfolio.py) -/

/-- The cash-and-holdings ledger: models `class Portfolio`
(src/portfolio.py). `holdings` models the dict ticker ->
{"stock": Stock, "shares": float} as an insertion-ordered association
list; the histories model the snapshot lists. -/
structure Ledger where
  cash : ℚ
  holdings : List (String × Stock × ℚ)
  trade_log : List TradeRec
  holdings_history : List (ℤ × List (String × Stock × ℚ))
  value_history : List (ℤ × ℚ)
deriving DecidableEq, Repr

/-- Whether the holdings dict has a key `t` (Python: `t in self.holdings`). -/
def holdsTicker (hs : List (String × Stock × ℚ)) (t : String) : Bool :=
  hs.any (fun e => e.1 = t)

/-- The share count stored under ticker `t`, or 0 when absent
(Python: `self.holdings[t]["shares"]`, used only when present). -/
def sharesOf (hs : List (String × Stock × ℚ)) (t : String) : ℚ :=
  ((hs.find? (fun e => e.1 = t)).map (fun e => e.2.2)).getD 0

/-- Add `sh` shares of `st` to the holdings dict: increment the stored
share count when the ticker is present, otherwise append a fresh entry
(Python: the if/else of `buy_stock`, src/portfolio.py lines 48-51). -/
def addHolding (hs : List (String × Stock × ℚ)) (st : Stock) (sh : ℚ) :
    List (String × Stock × ℚ) :=
  if holdsTicker hs st.ticker then
    hs.map (fun e => if e.1 = st.ticker then (e.1, e.2.1, e.2.2 + sh) else e)
  else
    hs ++ [(st.ticker, st, sh)]

/-- Overwrite the share count stored under ticker `t`. -/
def setShares (hs : List (String × Stock × ℚ)) (t : String) (sh : ℚ) :
    List (String × Stock × ℚ) :=
  hs.map (fun e => if e.1 = t then (e.1, e.2.1, sh) else e)

/-- Delete the entry stored under ticker `t`
(Python: `del self.holdings[t]`). -/
def removeTicker (hs : List (String × Stock × ℚ)) (t : String) :
    List (String × Stock × ℚ) :=
  hs.filter (fun e => ¬ e.1 = t)

/-- The executing tail of `Portfolio.buy_stock` (src/portfolio.py lines
44-53), reached after the price lookup and the insufficient-cash clamp:
a no-op when the (possibly clamped) share count is `≤ 0`, otherwise
cash decreases by `shares * price`, the holding grows, and a BUY is
logged. -/
def buyFinish (p : Ledger) (st : Stock) (shares price : ℚ) (d : ℤ) : Ledger :=
  if shares ≤ 0 then p
  else
    { p with
      cash := p.cash - shares * price
      holdings := addHolding p.holdings st shares
      trade_log := p.trade_log ++ [log_trade "BUY" st shares d] }

/-- `Portfolio.buy_stock` (src/portfolio.py lines 32-53). `none` models a
raised Python exception: a `TypeError` when the price is unavailable
(`shares * None`), and a `ZeroDivisionError` when the clamp divides by a
zero price. When the requested cost exceeds cash, the share count is
clamped down to `cash // price` (float floor division). -/
def Ledger.buy_stock (p : Ledger) (st : Stock) (shares : ℚ) (d : ℤ) :
    Option Ledger :=
  match st.get_price_at_date d with
  | none => none
  | some price =>
    if shares * price > p.cash then
      if price = 0 then none
      else some (buyFinish p st ((⌊p.cash / price⌋ : ℤ) : ℚ) price d)
    else some (buyFinish p st shares price d)

/-- `Portfolio.sell_stock` (src/portfolio.py lines 55-76): a no-op when
the ticker is not held or the clamped share count is `≤ 0`; otherwise
cash increases by `shares * price`, the holding shrinks (and is deleted
at exactly zero), and a SELL is logged. `none` models the `TypeError`
raised when the price is unavailable (`shares * None`). -/
def Ledger.sell_stock (p : Ledger) (st : Stock) (shares : ℚ) (d : ℤ) :
    Option Ledger :=
  if holdsTicker p.holdings st.ticker then
    let owned := sharesOf p.holdings st.ticker
    let sh := min shares owned
    if sh ≤ 0 then some p
    else
      match st.get_price_at_date d with
      | none => none
      | some price =>
        let hs1 := setShares p.holdings st.ticker (owned - sh)
        let hs2 := if owned - sh = 0 then removeTicker hs1 st.ticker else hs1
        some
          { p with
            cash := p.cash + sh * price
            holdings := hs2
            trade_log := p.trade_log ++ [log_trade "SELL" st sh d] }
  else some p

/-! ## Sequences of buy/sell calls -/

/-- One buy or sell call against the ledger, with its arguments. -/
inductive TradeCall where
  | buy (st : Stock) (shares : ℚ) (d : ℤ)
  | sell (st : Stock) (shares : ℚ) (d : ℤ)

/-- Apply one buy/sell call. -/
def applyCall (p : Ledger) : TradeCall → Option Ledger
  | .buy st sh d => p.buy_stock st sh d
  | .sell st sh d => p.sell_stock st sh d

/-- Replay a sequence of buy/sell calls against the ledger, stopping with
`none` when a call raises. -/
def runCalls (p : Ledger) : List TradeCall → Option Ledger
  | [] => some p
  | c :: cs =>
    match applyCall p c with
    | none => none
    | some q => runCalls q cs

/-- The signed cash outflow a logged trade accounts for: a BUY consumed
`quantity * price` of cash, a SELL produced it. -/
def tradeFlow (t : TradeRec) : ℚ :=
  if t.action = "BUY" then t.quantity * t.price.getD 0
  else -(t.quantity * t.price.getD 0)

/-- Total signed cash flow of a trade log. -/
def logFlow (l : List TradeRec) : ℚ :=
  (l.map tradeFlow).sum

/-! ## Conservation lemmas -/

theorem logFlow_append (l₁ l₂ : List TradeRec) :
    logFlow (l₁ ++ l₂) = logFlow l₁ + logFlow l₂ := by
  simp [logFlow]

theorem buyFinish_conserves (p : Ledger) (st : Stock) (s price : ℚ) (d : ℤ)
    (hpr : st.get_price_at_date d = some price) :
    (buyFinish p st s price d).cash + logFlow (buyFinish p st s price d).trade_log =
      p.cash + logFlow p.trade_log := by
  unfold buyFinish
  by_cases hle : s ≤ 0
  · rw [if_pos hle]
  · rw [if_neg hle]
    have flow_buy : tradeFlow (log_trade "BUY" st s d) = s * price := by
      simp [tradeFlow, log_trade, hpr]
    simp only [logFlow_append]
    simp only [logFlow, List.map_cons, List.map_nil, List.sum_cons, List.sum_nil, flow_buy]
    ring

theorem buy_stock_conserves {p q : Ledger} {st : Stock} {sh : ℚ} {d : ℤ}
    (h : p.buy_stock st sh d = some q) :
    q.cash + logFlow q.trade_log = p.cash + logFlow p.trade_log := by
  unfold Ledger.buy_stock at h
  rcases hpr : st.get_price_at_date d with _ | price
  · rw [hpr] at h; exact absurd h (by simp)
  · simp only [hpr] at h
    by_cases hcl : sh * price > p.cash
    · rw [if_pos hcl] at h
      by_cases hz : price = 0
      · rw [if_pos hz] at h; exact absurd h (by simp)
      · rw [if_neg hz] at h
        simp only [Option.some.injEq] at h
        subst h
        exact buyFinish_conserves p st _ price d hpr
    · rw [if_neg hcl] at h
      simp only [Option.some.injEq] at h
      subst h
      exact buyFinish_conserves p st sh price d hpr

theorem sell_stock_conserves {p q : Ledger} {st : Stock} {sh : ℚ} {d : ℤ}
    (h : p.sell_stock st sh d = some q) :
    q.cash + logFlow q.trade_log = p.cash + logFlow p.trade_log := by
  unfold Ledger.sell_stock at h
  by_cases hh : holdsTicker p.holdings st.ticker
  · rw [if_pos hh] at h
    simp only at h
    by_cases hle : min sh (sharesOf p.holdings st.ticker) ≤ 0
    · rw [if_pos hle] at h
      simp only [Option.some.injEq] at h
      subst h; rfl
    · rw [if_neg hle] at h
      rcases hpr : st.get_price_at_date d with _ | price
      · rw [hpr] at h; exact absurd h (by simp)
      · simp only [hpr, Option.some.injEq] at h
        subst h
        simp only [logFlow_append]
        have flow_sell :
            tradeFlow (log_trade "SELL" st (min sh (sharesOf p.holdings st.ticker)) d) =
              -(min sh (sharesOf p.holdings st.ticker) * price) := by
          simp [tradeFlow, log_trade, hpr]
        simp [logFlow, flow_sell]
        ring
  · rw [if_neg hh] at h
    simp only [Option.some.injEq] at h
    subst h; rfl

theorem applyCall_conserves {p q : Ledger} {c : TradeCall}
    (h : applyCall p c = some q) :
    q.cash + logFlow q.trade_log = p.cash + logFlow p.trade_log := by
  cases c with
  | buy st sh d => exact buy_stock_conserves h
  | sell st sh d => exact sell_stock_conserves h

/-- C1. Trade conservation: over any sequence of buy/sell calls that the
ledger executes, the final cash plus the signed sum of
`quantity * price-at-time-of-trade` over the logged trades (BUY counted
positive, SELL negative) equals the initial cash plus the same sum over
the initial log. Each executed buy decreases cash by exactly the
executed shares times the trade-date price, and each executed sell
increases it by exactly that amount; over rationals the identity is
exact. -/
theorem claim1_trade_conservation (p q : Ledger) (calls : List TradeCall)
    (h : runCalls p calls = some q) :
    q.cash + logFlow q.trade_log = p.cash + logFlow p.trade_log := by
  induction calls generalizing p with
  | nil =>
    unfold runCalls at h
    simp only [Option.some.injEq] at h
    subst h; rfl
  | cons c cs ih =>
    unfold runCalls at h
    rcases hc : applyCall p c with _ | r
    · rw [hc] at h; exact absurd h (by simp)
    · simp only [hc] at h
      calc q.cash + logFlow q.trade_log = r.cash + logFlow r.trade_log := ih r h
        _ = p.cash + logFlow p.trade_log := applyCall_conserves hc

/-- The single stock used by concrete test scenarios: ticker "A", priced
100 on every day from day 0 on. -/
def stockA : Stock := ⟨"A", [(0, 100)]⟩

/-- Initial all-cash ledger with 10000 of cash. -/
def ledger0 : Ledger := ⟨10000, [], [], [], []⟩

/-! ## Portfolio value and rebalancing (src/portfolio.py lines 23-108) -/

/-- One step of the value loop of `Portfolio.get_portfolio_value`
(src/portfolio.py line 29): add shares times as-of price of the stored
stock, `none` (a `TypeError`) when the price is unavailable. -/
def valStep (d : ℤ) (acc : Option ℚ) (e : String × Stock × ℚ) : Option ℚ :=
  match acc, e.2.1.get_price_at_date d with
  | some t, some pr => some (t + e.2.2 * pr)
  | _, _ => none

/-- `Portfolio.get_portfolio_value` (src/portfolio.py lines 23-30): cash
plus shares times as-of price over all holdings; `none` models the
`TypeError` raised when a held stock has no price at the date. -/
def Ledger.get_portfolio_value (p : Ledger) (d : ℤ) : Option ℚ :=
  p.holdings.foldl (valStep d) (some p.cash)

/-- `Portfolio.buy_stock` again, instrumented with a flag recording
whether the insufficient-cash branch ran (the trade was clamped).
Projecting the flag away gives `Ledger.buy_stock` exactly
(`buy_stock_eq_clamped`). -/
def Ledger.buy_stock_clamped (p : Ledger) (st : Stock) (shares : ℚ) (d : ℤ) :
    Option (Ledger × Bool) :=
  match st.get_price_at_date d with
  | none => none
  | some price =>
    if shares * price > p.cash then
      if price = 0 then none
      else some (buyFinish p st ((⌊p.cash / price⌋ : ℤ) : ℚ) price d, true)
    else some (buyFinish p st shares price d, false)

theorem buy_stock_eq_clamped (p : Ledger) (st : Stock) (shares : ℚ) (d : ℤ) :
    p.buy_stock st shares d = (p.buy_stock_clamped st shares d).map Prod.fst := by
  unfold Ledger.buy_stock Ledger.buy_stock_clamped
  rcases st.get_price_at_date d with _ | price
  · rfl
  · dsimp only
    by_cases hcl : shares * price > p.cash
    · rw [if_pos hcl, if_pos hcl]
      by_cases hz : price = 0
      · rw [if_pos hz, if_pos hz]; rfl
      · rw [if_neg hz, if_neg hz]; rfl
    · rw [if_neg hcl, if_neg hcl]; rfl

/-- The body of the per-instrument loop of
`Portfolio.rebalance_portfolio_with_weights` (src/portfolio.py lines
89-104) for one (stock, target_weight) pair, given the up-front total
value `tv`. Returns the updated ledger and whether a buy was clamped for
insufficient cash; `none` models a raised exception (`TypeError` on a
missing price where the code multiplies or divides with it,
`ZeroDivisionError` on a zero price). -/
def rebalanceOne (d : ℤ) (tv : ℚ) (p : Ledger) (st : Stock) (w : ℚ) :
    Option (Ledger × Bool) :=
  match
    (if holdsTicker p.holdings st.ticker then
      (st.get_price_at_date d).map (fun pr => sharesOf p.holdings st.ticker * pr)
    else some 0 : Option ℚ) with
  | none => none
  | some current_value =>
    if tv * w > current_value then
      match st.get_price_at_date d with
      | none => none
      | some price =>
        if price = 0 then none
        else if (tv * w - current_value) / price > 0 then
          p.buy_stock_clamped st ((tv * w - current_value) / price) d
        else some (p, false)
    else if current_value > tv * w then
      match st.get_price_at_date d with
      | none => none
      | some price =>
        if price = 0 then none
        else if (current_value - tv * w) / price > 0 then
          (p.sell_stock st ((current_value - tv * w) / price) d).map
            (fun q => (q, false))
        else some (p, false)
    else some (p, false)

/-- The per-instrument loop of
`Portfolio.rebalance_portfolio_with_weights`, folded over the
(stock, target_weight) pairs in dict insertion order, accumulating the
clamped-buy flag. -/
def rebalanceFold (d : ℤ) (tv : ℚ) :
    Ledger → Bool → List (Stock × ℚ) → Option (Ledger × Bool)
  | p, fl, [] => some (p, fl)
  | p, fl, sw :: rest =>
    match rebalanceOne d tv p sw.1 sw.2 with
    | none => none
    | some (q, fl') => rebalanceFold d tv q (fl || fl') rest

/-- `Portfolio.rebalance_portfolio_with_weights` (src/portfolio.py lines
81-108), instrumented with the clamped-buy flag: compute the total value
once up front, run the per-instrument loop, then append the holdings and
value snapshots. -/
def Ledger.rebalance_flag (p : Ledger) (ws : List (Stock × ℚ)) (d : ℤ) :
    Option (Ledger × Bool) :=
  match p.get_portfolio_value d with
  | none => none
  | some tv =>
    match rebalanceFold d tv p false ws with
    | none => none
    | some (q, fl) =>
      match q.get_portfolio_value d with
      | none => none
      | some tv2 =>
        some
          ({ q with
              holdings_history := q.holdings_history ++ [(d, q.holdings)]
              value_history := q.value_history ++ [(d, tv2)] }, fl)

/-- `Portfolio.rebalance_portfolio_with_weights` (src/portfolio.py lines
81-108): the instrumented run with the flag projected away. -/
def Ledger.rebalance_portfolio_with_weights (p : Ledger)
    (ws : List (Stock × ℚ)) (d : ℤ) : Option Ledger :=
  (p.rebalance_flag ws d).map Prod.fst

/-! ## Reachable ledger states (claim C2) -/

/-- Ledger states reachable from `p₀` by sequences of
`buy_stock` / `sell_stock` / `rebalance_portfolio_with_weights` calls
whose stocks satisfy the data-model invariant (all recorded prices
positive). Calls that raise produce no new state: in the Python code
every mutation of cash happens after the point of any possible raise, so
a crashed call leaves the ledger in a state this relation already
reaches. -/
inductive Reach : Ledger → Ledger → Prop where
  | refl (p : Ledger) : Reach p p
  | buy {p q r : Ledger} (st : Stock) (sh : ℚ) (d : ℤ) (hok : StockOK st)
      (hpq : Reach p q) (hop : q.buy_stock st sh d = some r) : Reach p r
  | sell {p q r : Ledger} (st : Stock) (sh : ℚ) (d : ℤ) (hok : StockOK st)
      (hpq : Reach p q) (hop : q.sell_stock st sh d = some r) : Reach p r
  | rebal {p q r : Ledger} (ws : List (Stock × ℚ)) (d : ℤ)
      (hok : ∀ sw ∈ ws, StockOK sw.1)
      (hpq : Reach p q) (hop : q.rebalance_portfolio_with_weights ws d = some r) :
      Reach p r

theorem foldl_best_mem {f : Option (ℤ × ℚ) → (ℤ × ℚ) → Option (ℤ × ℚ)}
    (hf : ∀ acc e, f acc e = some e ∨ f acc e = acc)
    (l : List (ℤ × ℚ)) (acc : Option (ℤ × ℚ)) (e : ℤ × ℚ)
    (h : l.foldl f acc = some e) : e ∈ l ∨ acc = some e := by
  induction l generalizing acc with
  | nil => exact Or.inr h
  | cons x xs ih =>
    rcases ih (f acc x) h with hmem | hacc
    · exact Or.inl (List.mem_cons_of_mem x hmem)
    · rcases hf acc x with hx | hkeep
      · rw [hx] at hacc
        simp only [Option.some.injEq] at hacc
        exact Or.inl (by rw [← hacc]; exact List.mem_cons_self x xs)
      · rw [hkeep] at hacc
        exact Or.inr hacc

theorem lastAtOrBefore_mem {h : List (ℤ × ℚ)} {d : ℤ} {e : ℤ × ℚ}
    (hl : lastAtOrBefore h d = some e) : e ∈ h := by
  unfold lastAtOrBefore at hl
  have hf : ∀ (acc : Option (ℤ × ℚ)) (x : ℤ × ℚ),
      (fun acc e =>
        match acc with
        | none => some e
        | some b => if b.1 ≤ e.1 then some e else some b) acc x = some x ∨
      (fun acc e =>
        match acc with
        | none => some e
        | some b => if b.1 ≤ e.1 then some e else some b) acc x = acc := by
    intro acc x
    rcases acc with _ | b
    · exact Or.inl rfl
    · by_cases hle : b.1 ≤ x.1
      · exact Or.inl (by simp [hle])
      · exact Or.inr (by simp [hle])
  rcases foldl_best_mem hf _ none e hl with hmem | habs
  · exact List.mem_of_mem_filter hmem
  · exact absurd habs (by simp)

/-- Under the positive-price data invariant, any price the as-of lookup
returns is positive. -/
theorem get_price_pos {st : Stock} {d : ℤ} {pr : ℚ}
    (hok : StockOK st) (hpr : st.get_price_at_date d = some pr) : 0 < pr := by
  unfold Stock.get_price_at_date at hpr
  rcases hf : (st.price_history.find? (fun e => e.1 = d)).map (fun e => e.2) with _ | v
  · rw [hf] at hpr
    simp only at hpr
    rcases hl : lastAtOrBefore st.price_history d with _ | e
    · rw [hl] at hpr; exact absurd hpr (by simp)
    · rw [hl] at hpr
      simp only [Option.map_some', Option.some.injEq] at hpr
      subst hpr
      exact hok e (lastAtOrBefore_mem hl)
  · rw [hf] at hpr
    simp only [Option.some.injEq] at hpr
    subst hpr
    rcases hfind : st.price_history.find? (fun e => e.1 = d) with _ | e
    · rw [hfind] at hf; exact absurd hf (by simp)
    · rw [hfind] at hf
      simp only [Option.map_some', Option.some.injEq] at hf
      subst hf
      exact hok e (List.mem_of_find?_eq_some hfind)

theorem buyFinish_cash_nonneg {p : Ledger} {st : Stock} {s price : ℚ} {d : ℤ}
    (h0 : 0 ≤ p.cash) (hcost : s * price ≤ p.cash) :
    0 ≤ (buyFinish p st s price d).cash := by
  unfold buyFinish
  by_cases hle : s ≤ 0
  · rw [if_pos hle]; exact h0
  · rw [if_neg hle]
    simpa using hcost

theorem buy_stock_cash_nonneg {p q : Ledger} {st : Stock} {sh : ℚ} {d : ℤ}
    (hok : StockOK st) (h0 : 0 ≤ p.cash)
    (h : p.buy_stock st sh d = some q) : 0 ≤ q.cash := by
  unfold Ledger.buy_stock at h
  rcases hpr : st.get_price_at_date d with _ | price
  · rw [hpr] at h; exact absurd h (by simp)
  · have hpos : 0 < price := get_price_pos hok hpr
    simp only [hpr] at h
    by_cases hcl : sh * price > p.cash
    · rw [if_pos hcl, if_neg (ne_of_gt hpos)] at h
      simp only [Option.some.injEq] at h
      subst h
      refine buyFinish_cash_nonneg h0 ?_
      calc ((⌊p.cash / price⌋ : ℤ) : ℚ) * price ≤ p.cash / price * price :=
            mul_le_mul_of_nonneg_right (Int.floor_le _) (le_of_lt hpos)
        _ = p.cash := div_mul_cancel₀ _ (ne_of_gt hpos)
    · rw [if_neg hcl] at h
      simp only [Option.some.injEq] at h
      subst h
      exact buyFinish_cash_nonneg h0 (not_lt.mp hcl)

theorem sell_stock_cash_nonneg {p q : Ledger} {st : Stock} {sh : ℚ} {d : ℤ}
    (hok : StockOK st) (h0 : 0 ≤ p.cash)
    (h : p.sell_stock st sh d = some q) : 0 ≤ q.cash := by
  unfold Ledger.sell_stock at h
  by_cases hh : holdsTicker p.holdings st.ticker
  · rw [if_pos hh] at h
    simp only at h
    by_cases hle : min sh (sharesOf p.holdings st.ticker) ≤ 0
    · rw [if_pos hle] at h
      simp only [Option.some.injEq] at h
      subst h; exact h0
    · rw [if_neg hle] at h
      rcases hpr : st.get_price_at_date d with _ | price
      · rw [hpr] at h; exact absurd h (by simp)
      · have hpos : 0 < price := get_price_pos hok hpr
        simp only [hpr, Option.some.injEq] at h
        subst h
        have : 0 ≤ min sh (sharesOf p.holdings st.ticker) * price :=
          mul_nonneg (le_of_lt (lt_of_not_ge hle)) (le_of_lt hpos)
        simpa using add_nonneg h0 this
  · rw [if_neg hh] at h
    simp only [Option.some.injEq] at h
    subst h; exact h0

theorem rebalanceOne_cash_nonneg {p : Ledger} {st : Stock} {w : ℚ} {d : ℤ}
    {tv : ℚ} {q : Ledger} {fl : Bool}
    (hok : StockOK st) (h0 : 0 ≤ p.cash)
    (h : rebalanceOne d tv p st w = some (q, fl)) : 0 ≤ q.cash := by
  unfold rebalanceOne at h
  rcases hcv : (if holdsTicker p.holdings st.ticker then
      (st.get_price_at_date d).map (fun pr => sharesOf p.holdings st.ticker * pr)
    else some (0 : ℚ)) with _ | cv
  · rw [hcv] at h; exact absurd h (by simp)
  · simp only [hcv] at h
    by_cases hbuy : tv * w > cv
    · rw [if_pos hbuy] at h
      rcases hpr : st.get_price_at_date d with _ | price
      · rw [hpr] at h; exact absurd h (by simp)
      · have hpos : 0 < price := get_price_pos hok hpr
        simp only [hpr] at h
        rw [if_neg (ne_of_gt hpos)] at h
        by_cases hgt : (tv * w - cv) / price > 0
        · rw [if_pos hgt] at h
          have hb : p.buy_stock st ((tv * w - cv) / price) d = some q := by
            rw [buy_stock_eq_clamped, h]; rfl
          exact buy_stock_cash_nonneg hok h0 hb
        · rw [if_neg hgt] at h
          simp only [Option.some.injEq, Prod.mk.injEq] at h
          rcases h with ⟨h, -⟩
          subst h; exact h0
    · rw [if_neg hbuy] at h
      by_cases hsell : cv > tv * w
      · rw [if_pos hsell] at h
        rcases hpr : st.get_price_at_date d with _ | price
        · rw [hpr] at h; exact absurd h (by simp)
        · have hpos : 0 < price := get_price_pos hok hpr
          simp only [hpr] at h
          rw [if_neg (ne_of_gt hpos)] at h
          by_cases hgt : (cv - tv * w) / price > 0
          · rw [if_pos hgt] at h
            rcases hs : p.sell_stock st ((cv - tv * w) / price) d with _ | r
            · rw [hs] at h; exact absurd h (by simp)
            · rw [hs] at h
              simp only [Option.map_some', Option.some.injEq, Prod.mk.injEq] at h
              rcases h with ⟨h, -⟩
              subst h
              exact sell_stock_cash_nonneg hok h0 hs
          · rw [if_neg hgt] at h
            simp only [Option.some.injEq, Prod.mk.injEq] at h
            rcases h with ⟨h, -⟩
            subst h; exact h0
      · rw [if_neg hsell] at h
        simp only [Option.some.injEq, Prod.mk.injEq] at h
        rcases h with ⟨h, -⟩
        subst h; exact h0

theorem rebalanceFold_cash_nonneg {d : ℤ} {tv : ℚ} {ws : List (Stock × ℚ)}
    {p q : Ledger} {fl0 fl : Bool}
    (hok : ∀ sw ∈ ws, StockOK sw.1) (h0 : 0 ≤ p.cash)
    (h : rebalanceFold d tv p fl0 ws = some (q, fl)) : 0 ≤ q.cash := by
  induction ws generalizing p fl0 with
  | nil =>
    unfold rebalanceFold at h
    simp only [Option.some.injEq, Prod.mk.injEq] at h
    rcases h with ⟨h, -⟩
    subst h; exact h0
  | cons sw rest ih =>
    unfold rebalanceFold at h
    rcases hone : rebalanceOne d tv p sw.1 sw.2 with _ | r
    · rw [hone] at h; exact absurd h (by simp)
    · simp only [hone] at h
      have hr : 0 ≤ r.1.cash :=
        rebalanceOne_cash_nonneg (hok sw (List.mem_cons_self sw rest)) h0
          (by rw [hone])
      exact ih (fun x hx => hok x (List.mem_cons_of_mem sw hx)) hr h

theorem rebalance_cash_nonneg {p q : Ledger} {ws : List (Stock × ℚ)} {d : ℤ}
    (hok : ∀ sw ∈ ws, StockOK sw.1) (h0 : 0 ≤ p.cash)
    (h : p.rebalance_portfolio_with_weights ws d = some q) : 0 ≤ q.cash := by
  unfold Ledger.rebalance_portfolio_with_weights Ledger.rebalance_flag at h
  rcases htv : p.get_portfolio_value d with _ | tv
  · rw [htv] at h; exact absurd h (by simp)
  · simp only [htv] at h
    rcases hfold : rebalanceFold d tv p false ws with _ | r
    · rw [hfold] at h; exact absurd h (by simp)
    · simp only [hfold] at h
      rcases htv2 : r.1.get_portfolio_value d with _ | tv2
      · rw [htv2] at h; exact absurd h (by simp)
      · simp only [htv2, Option.map_some', Option.some.injEq] at h
        have hr : 0 ≤ r.1.cash :=
          rebalanceFold_cash_nonneg hok h0 (by rw [hfold])
        rw [← h]
        exact hr

/-- C2. No negative cash, with the clamp rule: from any start state with
non-negative cash, every state reachable by buy/sell/rebalance calls
over positive-priced stocks has non-negative cash; and at any such state,
a buy whose requested cost `sh * pr` exceeds the available cash executes
with the share count clamped down to the floor `⌊cash / pr⌋`
(Python `cash // price`). -/
theorem claim2_no_negative_cash (p0 p : Ledger) (st : Stock) (sh pr : ℚ) (d : ℤ)
    (h0 : 0 ≤ p0.cash) (hre : Reach p0 p)
    (hok : StockOK st) (hpr : st.get_price_at_date d = some pr)
    (hover : sh * pr > p.cash) :
    0 ≤ p.cash ∧
      p.buy_stock st sh d =
        some (buyFinish p st ((⌊p.cash / pr⌋ : ℤ) : ℚ) pr d) := by
  have hcash : 0 ≤ p.cash := by
    clear hover hpr
    induction hre with
    | refl => exact h0
    | buy st' sh' d' hok' hpq hop ih => exact buy_stock_cash_nonneg hok' ih hop
    | sell st' sh' d' hok' hpq hop ih => exact sell_stock_cash_nonneg hok' ih hop
    | rebal ws' d' hok' hpq hop ih => exact rebalance_cash_nonneg hok' ih hop
  refine ⟨hcash, ?_⟩
  have hpos : 0 < pr := get_price_pos hok hpr
  unfold Ledger.buy_stock
  rw [hpr]
  simp only
  rw [if_pos hover, if_neg (ne_of_gt hpos)]

/-- Witness for C2: from an all-cash ledger, one executed buy reaches the
state with cash 5000, where a requested 100-share buy at price 100 (cost
10000 > 5000) is clamped to `⌊5000 / 100⌋ = 50` shares. -/
theorem claim2_no_negative_cash_witness :
    0 ≤ ledger0.cash ∧
      (0 ≤ (buyFinish ledger0 stockA 50 100 0).cash ∧
        (buyFinish ledger0 stockA 50 100 0).buy_stock stockA 100 0 =
          some (buyFinish (buyFinish ledger0 stockA 50 100 0) stockA
            ((⌊(buyFinish ledger0 stockA 50 100 0).cash / 100⌋ : ℤ) : ℚ) 100 0)) := by
  refine ⟨by norm_num [ledger0], ?_⟩
  refine claim2_no_negative_cash ledger0 (buyFinish ledger0 stockA 50 100 0)
    stockA 100 100 0 (by norm_num [ledger0])
    (Reach.buy stockA 50 0 ?_ (Reach.refl ledger0) ?_) ?_ ?_ ?_
  · norm_num [StockOK, stockA]
  · norm_num +decide [Ledger.buy_stock, Stock.get_price_at_date, lastAtOrBefore,
      stockA, ledger0, List.find?, List.filter]
  · norm_num [StockOK, stockA]
  · norm_num +decide [Stock.get_price_at_date, lastAtOrBefore, stockA,
      List.find?, List.filter]
  · norm_num +decide [buyFinish, ledger0, stockA, addHolding, holdsTicker,
      log_trade]

/-- The spec's ledger scenario as calls: buy 50 shares of A, then sell 20,
both on day 0 at price 100. -/
def scenarioCalls : List TradeCall :=
  [.buy stockA 50 0, .sell stockA 20 0]

/-- The ledger after the scenario: cash 7000, 30 shares of A, two trades. -/
def ledgerScenario : Ledger :=
  ⟨7000, [("A", stockA, 30)],
   [⟨"BUY", "A", 50, 0, some 100⟩, ⟨"SELL", "A", 20, 0, some 100⟩], [], []⟩

/-- Witness for C1: the scenario executes, and the conservation identity
instantiates on it (7000 + (50*100 - 20*100) = 10000). -/
theorem claim1_trade_conservation_witness :
    runCalls ledger0 scenarioCalls = some ledgerScenario ∧
      ledgerScenario.cash + logFlow ledgerScenario.trade_log =
        ledger0.cash + logFlow ledger0.trade_log := by
  constructor
  · norm_num +decide [runCalls, applyCall, Ledger.buy_stock, Ledger.sell_stock,
      Stock.get_price_at_date, lastAtOrBefore, stockA, ledger0, scenarioCalls,
      buyFinish, addHolding, holdsTicker, sharesOf, setShares, removeTicker,
      log_trade, ledgerScenario, List.find?, List.filter]
  · exact claim1_trade_conservation ledger0 ledgerScenario scenarioCalls
      (by norm_num +decide [runCalls, applyCall, Ledger.buy_stock, Ledger.sell_stock,
        Stock.get_price_at_date, lastAtOrBefore, stockA, ledger0, scenarioCalls,
        buyFinish, addHolding, holdsTicker, sharesOf, setShares, removeTicker,
        log_trade, ledgerScenario, List.find?, List.filter])

/-! ## The strategy-side holdings tracker (class Algorithim, src/algorithim.py) -/

/-- `pandas.Series.asof`: the most recent recorded value at or before the
date, `none` (NaN) when the series has no entry at or before it. Used by
`Algorithim.rebalance_portfolio_with_weights` (src/algorithim.py line 82)
and the highest-price strategy. -/
def Stock.price_asof (s : Stock) (d : ℤ) : Option ℚ :=
  (lastAtOrBefore s.price_history d).map (fun e => e.2)

/-- Python `int()` applied to a float: truncation toward zero. -/
def truncQ (q : ℚ) : ℤ :=
  if q < 0 then ⌈q⌉ else ⌊q⌋

/-- The holdings tracker of `class Algorithim` (src/algorithim.py): a
ticker-keyed dict of (stock, shares) plus a trade log. Unlike the ledger
(`class Portfolio`), it tracks no cash balance. -/
structure AlgoState where
  current_holdings : List (String × Stock × ℚ)
  trade_log : List TradeRec
deriving DecidableEq, Repr

/-- `Algorithim.buy_stock` (src/algorithim.py lines 35-41): create or
increment the holding and log a BUY. No cash is involved. -/
def AlgoState.buy_stock (a : AlgoState) (st : Stock) (sh : ℚ) (d : ℤ) :
    AlgoState :=
  { current_holdings := addHolding a.current_holdings st sh
    trade_log := a.trade_log ++ [log_trade "BUY" st sh d] }

/-- `Algorithim.sell_stock` (src/algorithim.py lines 43-48): sell ALL
shares of the ticker — log a SELL for the full stored share count and
delete the entry; a no-op when the ticker is not held. -/
def AlgoState.sell_stock (a : AlgoState) (t : String) (d : ℤ) : AlgoState :=
  match a.current_holdings.find? (fun e => e.1 = t) with
  | none => a
  | some e =>
    { current_holdings := removeTicker a.current_holdings t
      trade_log := a.trade_log ++ [log_trade "SELL" e.2.1 e.2.2 d] }

/-- The buy/adjust body of `Algorithim.rebalance_portfolio_with_weights`
(src/algorithim.py lines 80-95) for one (stock, weight) pair: skip when
the as-of price is unavailable (NaN) or not positive; otherwise move the
stored share count to `int(target_value / price)`, buying the positive
difference or logging a SELL and reducing in place for a negative one. -/
def algoAdjust (a : AlgoState) (st : Stock) (w : ℚ) (d : ℤ) (pv : ℚ) :
    AlgoState :=
  match st.price_asof d with
  | none => a
  | some current_price =>
    if current_price > 0 then
      if ((truncQ (pv * w / current_price) : ℚ) -
          sharesOf a.current_holdings st.ticker) > 0 then
        a.buy_stock st ((truncQ (pv * w / current_price) : ℚ) -
          sharesOf a.current_holdings st.ticker) d
      else if ((truncQ (pv * w / current_price) : ℚ) -
          sharesOf a.current_holdings st.ticker) < 0 then
        { current_holdings :=
            setShares a.current_holdings st.ticker
              (sharesOf a.current_holdings st.ticker +
                ((truncQ (pv * w / current_price) : ℚ) -
                  sharesOf a.current_holdings st.ticker))
          trade_log := a.trade_log ++
            [log_trade "SELL" st
              (-((truncQ (pv * w / current_price) : ℚ) -
                sharesOf a.current_holdings st.ticker)) d] }
      else a
    else a

/-- `Algorithim.rebalance_portfolio_with_weights` (src/algorithim.py lines
62-95): first sell (fully) every held ticker not among the target
tickers, iterating over the snapshot of the current keys; then buy or
adjust each target position toward `portfolio_value * weight`. -/
def AlgoState.rebalance_portfolio_with_weights (a : AlgoState)
    (ws : List (Stock × ℚ)) (d : ℤ) (pv : ℚ) : AlgoState :=
  ws.foldl (fun s sw => algoAdjust s sw.1 sw.2 d pv)
    ((a.current_holdings.map (fun e => e.1)).foldl
      (fun s t =>
        if t ∈ ws.map (fun sw => sw.1.ticker) then s else s.sell_stock t d)
      a)

/-! ## Claim C3: liquidation of instruments absent from the target weights -/

theorem holdsTicker_map_keys (hs : List (String × Stock × ℚ))
    (f : String × Stock × ℚ → String × Stock × ℚ)
    (hk : ∀ e, (f e).1 = e.1) (t : String) :
    holdsTicker (hs.map f) t = holdsTicker hs t := by
  unfold holdsTicker
  induction hs with
  | nil => rfl
  | cons e es ih => simp [hk, ih]

theorem holdsTicker_addHolding_ne (hs : List (String × Stock × ℚ)) (st : Stock)
    (sh : ℚ) (t : String) (hne : st.ticker ≠ t) :
    holdsTicker (addHolding hs st sh) t = holdsTicker hs t := by
  unfold addHolding
  by_cases hh : holdsTicker hs st.ticker
  · rw [if_pos hh]
    exact holdsTicker_map_keys hs _
      (fun e => by by_cases h : e.1 = st.ticker <;> simp [h]) t
  · rw [if_neg hh]
    simp [holdsTicker, hne]

theorem holdsTicker_setShares (hs : List (String × Stock × ℚ)) (u : String)
    (sh : ℚ) (t : String) :
    holdsTicker (setShares hs u sh) t = holdsTicker hs t :=
  holdsTicker_map_keys hs _ (fun e => by by_cases h : e.1 = u <;> simp [h]) t

theorem holdsTicker_removeTicker_self (hs : List (String × Stock × ℚ))
    (t : String) : holdsTicker (removeTicker hs t) t = false := by
  unfold holdsTicker removeTicker
  induction hs with
  | nil => rfl
  | cons e es ih => by_cases h : e.1 = t <;> simp [h, ih]

theorem holdsTicker_removeTicker_le (hs : List (String × Stock × ℚ))
    (u t : String) (h : holdsTicker hs t = false) :
    holdsTicker (removeTicker hs u) t = false := by
  rcases hb : holdsTicker (removeTicker hs u) t with _ | _
  · rfl
  · exfalso
    unfold holdsTicker removeTicker at hb
    simp only [List.any_eq_true, List.mem_filter, decide_eq_true_eq] at hb
    rcases hb with ⟨e, ⟨hmem, -⟩, ht⟩
    have : holdsTicker hs t = true := by
      unfold holdsTicker
      simp only [List.any_eq_true, decide_eq_true_eq]
      exact ⟨e, hmem, ht⟩
    rw [h] at this
    exact Bool.false_ne_true this

theorem find?_removeTicker_ne (hs : List (String × Stock × ℚ)) (u t : String)
    (hne : u ≠ t) :
    (removeTicker hs u).find? (fun e => e.1 = t) =
      hs.find? (fun e => e.1 = t) := by
  unfold removeTicker
  rw [List.find?_filter]
  congr 1
  funext e
  by_cases h : e.1 = t
  · have hu : ¬ e.1 = u := fun hu => hne (by rw [← hu, h])
    simp [h, hu]
    exact fun ht => hne ht.symm
  · simp [h]

theorem sell_stock_find_ne (a : AlgoState) (u : String) (d : ℤ) (t : String)
    (hne : u ≠ t) :
    (a.sell_stock u d).current_holdings.find? (fun e => e.1 = t) =
      a.current_holdings.find? (fun e => e.1 = t) := by
  unfold AlgoState.sell_stock
  rcases hf : a.current_holdings.find? (fun e => e.1 = u) with _ | e
  · simp only [hf]
  · simp only [hf]
    exact find?_removeTicker_ne a.current_holdings u t hne

theorem sell_stock_holds_mono (a : AlgoState) (u : String) (d : ℤ) (t : String)
    (h : holdsTicker a.current_holdings t = false) :
    holdsTicker (a.sell_stock u d).current_holdings t = false := by
  unfold AlgoState.sell_stock
  rcases hf : a.current_holdings.find? (fun e => e.1 = u) with _ | e
  · simp only [hf]; exact h
  · simp only [hf]
    exact holdsTicker_removeTicker_le a.current_holdings u t h

theorem sell_stock_log_mono (a : AlgoState) (u : String) (d : ℤ) (tr : TradeRec)
    (h : tr ∈ a.trade_log) : tr ∈ (a.sell_stock u d).trade_log := by
  unfold AlgoState.sell_stock
  rcases hf : a.current_holdings.find? (fun e => e.1 = u) with _ | e
  · simp only [hf]; exact h
  · simp only [hf]
    exact List.mem_append_left _ h

theorem sell_stock_hits (a : AlgoState) (t : String) (d : ℤ) (st : Stock)
    (sh : ℚ)
    (hfind : a.current_holdings.find? (fun e => e.1 = t) = some (t, st, sh)) :
    holdsTicker (a.sell_stock t d).current_holdings t = false ∧
      log_trade "SELL" st sh d ∈ (a.sell_stock t d).trade_log := by
  unfold AlgoState.sell_stock
  simp only [hfind]
  exact ⟨holdsTicker_removeTicker_self _ t, by simp⟩

theorem sellPass_preserves (d : ℤ) (tgts : List String) (t : String)
    (tr : TradeRec) :
    ∀ (keys : List String) (a : AlgoState),
      holdsTicker a.current_holdings t = false → tr ∈ a.trade_log →
      holdsTicker ((keys.foldl
          (fun s u => if u ∈ tgts then s else s.sell_stock u d)
          a)).current_holdings t = false ∧
        tr ∈ (keys.foldl (fun s u => if u ∈ tgts then s else s.sell_stock u d)
          a).trade_log := by
  intro keys
  induction keys with
  | nil => intro a h1 h2; exact ⟨h1, h2⟩
  | cons u ks ih =>
    intro a h1 h2
    simp only [List.foldl_cons]
    by_cases hu : u ∈ tgts
    · rw [if_pos hu]; exact ih a h1 h2
    · rw [if_neg hu]
      exact ih _ (sell_stock_holds_mono a u d t h1) (sell_stock_log_mono a u d tr h2)

theorem sellPass_clears (d : ℤ) (tgts : List String) (t : String) (st : Stock)
    (sh : ℚ) :
    ∀ (keys : List String) (a : AlgoState),
      t ∈ keys → t ∉ tgts →
      a.current_holdings.find? (fun e => e.1 = t) = some (t, st, sh) →
      holdsTicker ((keys.foldl
          (fun s u => if u ∈ tgts then s else s.sell_stock u d)
          a)).current_holdings t = false ∧
        log_trade "SELL" st sh d ∈
          (keys.foldl (fun s u => if u ∈ tgts then s else s.sell_stock u d)
            a).trade_log := by
  intro keys
  induction keys with
  | nil => intro a hmem; exact absurd hmem (List.not_mem_nil t)
  | cons u ks ih =>
    intro a hmem hnt hfind
    simp only [List.foldl_cons]
    by_cases hut : u = t
    · subst hut
      rw [if_neg hnt]
      rcases sell_stock_hits a u d st sh hfind with ⟨h1, h2⟩
      exact sellPass_preserves d tgts u _ ks _ h1 h2
    · have hmem' : t ∈ ks := by
        rcases List.mem_cons.mp hmem with h | h
        · exact absurd h.symm hut
        · exact h
      by_cases hu : u ∈ tgts
      · rw [if_pos hu]; exact ih a hmem' hnt hfind
      · rw [if_neg hu]
        refine ih _ hmem' hnt ?_
        rw [sell_stock_find_ne a u d t hut]
        exact hfind

theorem algoAdjust_holds_mono (a : AlgoState) (st : Stock) (w : ℚ) (d : ℤ)
    (pv : ℚ) (t : String) (hne : st.ticker ≠ t)
    (h : holdsTicker a.current_holdings t = false) :
    holdsTicker (algoAdjust a st w d pv).current_holdings t = false := by
  unfold algoAdjust
  rcases st.price_asof d with _ | cp
  · exact h
  · dsimp only
    by_cases hcp : cp > 0
    · rw [if_pos hcp]
      by_cases hbuy : ((truncQ (pv * w / cp) : ℚ) -
          sharesOf a.current_holdings st.ticker) > 0
      · rw [if_pos hbuy]
        unfold AlgoState.buy_stock
        dsimp only
        rw [holdsTicker_addHolding_ne a.current_holdings st _ t hne]
        exact h
      · rw [if_neg hbuy]
        by_cases hsell : ((truncQ (pv * w / cp) : ℚ) -
            sharesOf a.current_holdings st.ticker) < 0
        · rw [if_pos hsell]
          dsimp only
          rw [holdsTicker_setShares]
          exact h
        · rw [if_neg hsell]; exact h
    · rw [if_neg hcp]; exact h

theorem algoAdjust_log_mono (a : AlgoState) (st : Stock) (w : ℚ) (d : ℤ)
    (pv : ℚ) (tr : TradeRec) (h : tr ∈ a.trade_log) :
    tr ∈ (algoAdjust a st w d pv).trade_log := by
  unfold algoAdjust
  rcases st.price_asof d with _ | cp
  · exact h
  · dsimp only
    by_cases hcp : cp > 0
    · rw [if_pos hcp]
      by_cases hbuy : ((truncQ (pv * w / cp) : ℚ) -
          sharesOf a.current_holdings st.ticker) > 0
      · rw [if_pos hbuy]
        unfold AlgoState.buy_stock
        exact List.mem_append_left _ h
      · rw [if_neg hbuy]
        by_cases hsell : ((truncQ (pv * w / cp) : ℚ) -
            sharesOf a.current_holdings st.ticker) < 0
        · rw [if_pos hsell]
          exact List.mem_append_left _ h
        · rw [if_neg hsell]; exact h
    · rw [if_neg hcp]; exact h

theorem buyPass_preserves (d : ℤ) (pv : ℚ) (t : String) (tr : TradeRec) :
    ∀ (ws : List (Stock × ℚ)) (a : AlgoState),
      t ∉ ws.map (fun sw => sw.1.ticker) →
      holdsTicker a.current_holdings t = false → tr ∈ a.trade_log →
      holdsTicker ((ws.foldl (fun s sw => algoAdjust s sw.1 sw.2 d pv)
          a)).current_holdings t = false ∧
        tr ∈ (ws.foldl (fun s sw => algoAdjust s sw.1 sw.2 d pv) a).trade_log := by
  intro ws
  induction ws with
  | nil => intro a _ h1 h2; exact ⟨h1, h2⟩
  | cons sw rest ih =>
    intro a hnt h1 h2
    rw [List.map_cons] at hnt
    have hne : sw.1.ticker ≠ t := fun he => hnt (by rw [he]; exact List.mem_cons_self _ _)
    have hnt' : t ∉ rest.map (fun sw => sw.1.ticker) :=
      fun hmem => hnt (List.mem_cons_of_mem _ hmem)
    simp only [List.foldl_cons]
    exact ih _ hnt' (algoAdjust_holds_mono a sw.1 sw.2 d pv t hne h1)
      (algoAdjust_log_mono a sw.1 sw.2 d pv tr h2)

/-- C3 (amended). In `Algorithim.rebalance_portfolio_with_weights`
(src/algorithim.py), every instrument currently held but absent from
target_weights is fully liquidated: after the call its ticker is no
longer held and a SELL trade for its entire stored share count is in the
trade log. (The `Algorithim` tracker holds no cash, so no cash balance
changes; `Portfolio.rebalance_portfolio_with_weights` never liquidates
absent instruments at all — see the counterexample.) -/
theorem claim3_absent_instruments_liquidated (a : AlgoState)
    (ws : List (Stock × ℚ)) (d : ℤ) (pv : ℚ) (t : String) (st : Stock) (sh : ℚ)
    (hfind : a.current_holdings.find? (fun e => e.1 = t) = some (t, st, sh))
    (hnot : t ∉ ws.map (fun sw => sw.1.ticker)) :
    holdsTicker (a.rebalance_portfolio_with_weights ws d pv).current_holdings
        t = false ∧
      log_trade "SELL" st sh d ∈
        (a.rebalance_portfolio_with_weights ws d pv).trade_log := by
  unfold AlgoState.rebalance_portfolio_with_weights
  have hm : (t, st, sh) ∈ a.current_holdings := List.mem_of_find?_eq_some hfind
  have htkeys : t ∈ a.current_holdings.map (fun e => e.1) :=
    List.mem_map.mpr ⟨(t, st, sh), hm, rfl⟩
  rcases sellPass_clears d (ws.map (fun sw => sw.1.ticker)) t st sh
      (a.current_holdings.map (fun e => e.1)) a htkeys hnot hfind with ⟨h1, h2⟩
  exact buyPass_preserves d pv t _ ws _ hnot h1 h2

/-- The algorithm-side state fully invested in stock A (10 shares). -/
def algoAllA : AlgoState := ⟨[("A", stockA, 10)], []⟩

/-- Witness for C3 (amended): rebalancing `algoAllA` with empty target
weights liquidates A — the ticker is gone and the full-size SELL is
logged. -/
theorem claim3_absent_instruments_liquidated_witness :
    (algoAllA.current_holdings.find? (fun e => e.1 = "A") =
        some ("A", stockA, 10)) ∧
      holdsTicker (algoAllA.rebalance_portfolio_with_weights [] 0
          0).current_holdings "A" = false ∧
      log_trade "SELL" stockA 10 0 ∈
        (algoAllA.rebalance_portfolio_with_weights [] 0 0).trade_log := by
  refine ⟨by norm_num +decide [algoAllA, List.find?], ?_⟩
  exact claim3_absent_instruments_liquidated algoAllA [] 0 0 "A" stockA 10
    (by norm_num +decide [algoAllA, List.find?]) (by simp)

/-- The ledger fully invested in stock A (10 shares at price 100), cash 0. -/
def ledgerAllA : Ledger := ⟨0, [("A", stockA, 10)], [], [], []⟩

/-- Counterexample for C3 as stated: the ledger's own
`Portfolio.rebalance_portfolio_with_weights` with an EMPTY target-weights
mapping sells nothing — the holdings stay fully invested in A and cash
stays 0, where the claim requires holdings to become empty and cash to
increase by shares times price (to 1000). Only the snapshot histories
grow. -/
theorem claim3_counterexample :
    ledgerAllA.rebalance_portfolio_with_weights [] 0 =
        some ⟨0, [("A", stockA, 10)], [],
          [(0, [("A", stockA, 10)])], [(0, 1000)]⟩ ∧
      (ledgerAllA.rebalance_portfolio_with_weights [] 0).map Ledger.holdings ≠
        some [] ∧
      (ledgerAllA.rebalance_portfolio_with_weights [] 0).map Ledger.cash =
        some 0 := by
  refine ⟨?_, ?_, ?_⟩ <;>
    norm_num +decide [Ledger.rebalance_portfolio_with_weights,
      Ledger.rebalance_flag, rebalanceFold, Ledger.get_portfolio_value, valStep,
      Stock.get_price_at_date, lastAtOrBefore, ledgerAllA, stockA,
      List.find?, List.filter]

/-! ## Claim C4: valuation reconstruction
(`Portfolio.initialize_smooth_value_history`, src/portfolio.py lines 110-132) -/

/-- The first recorded entry of a (date, value) series at or after `d`. -/
def firstAtOrAfter (h : List (ℤ × ℚ)) (d : ℤ) : Option (ℤ × ℚ) :=
  (h.filter (fun e => d ≤ e.1)).foldl
    (fun acc e =>
      match acc with
      | none => some e
      | some b => if e.1 < b.1 then some e else some b)
    none

/-- Stable insertion (ascending by date) — an equal date goes after the
entries already placed, as Python's stable `list.sort` does. -/
def insertAsc (x : ℤ × ℚ) : List (ℤ × ℚ) → List (ℤ × ℚ)
  | [] => [x]
  | y :: ys => if y.1 ≤ x.1 then y :: insertAsc x ys else x :: y :: ys

/-- `self.value_history.sort(key=lambda x: x[0])` (src/portfolio.py line
118): stable sort of the recorded (date, value) points by date. -/
def sortByDate (l : List (ℤ × ℚ)) : List (ℤ × ℚ) :=
  l.foldl (fun acc x => insertAsc x acc) []

/-- `pd.date_range(start, end, freq="D")`: every day from `s` to `e`
inclusive. -/
def dateRange (s e : ℤ) : List ℤ :=
  if e < s then []
  else (List.range (e - s).toNat.succ).map (fun (i : ℕ) => s + (i : ℤ))

/-- The value `df.reindex(full_dates).interpolate(method="time")` assigns
to day `d` (src/portfolio.py line 127): the recorded value at an exact
hit, otherwise the time-weighted linear interpolation between the
nearest recorded points strictly before and after (with the last value
carried forward past the final point, as pandas does for trailing gaps;
unreachable here since the range ends at the last recorded date). -/
def interpAt (pts : List (ℤ × ℚ)) (d : ℤ) : ℚ :=
  match pts.find? (fun e => e.1 = d) with
  | some e => e.2
  | none =>
    match lastAtOrBefore pts d, firstAtOrAfter pts d with
    | some e0, some e1 =>
      e0.2 + ((d - e0.1 : ℤ) : ℚ) / ((e1.1 - e0.1 : ℤ) : ℚ) * (e1.2 - e0.2)
    | some e0, none => e0.2
    | none, _ => 0

/-- `Portfolio.initialize_smooth_value_history` (src/portfolio.py lines
110-132): empty history gives `[]`; otherwise sort by date, build the
daily date range from first to last recorded date, and fill every day by
time interpolation of the recorded total values. -/
def initialize_smooth_value_history (vh : List (ℤ × ℚ)) : List (ℤ × ℚ) :=
  match sortByDate vh with
  | [] => []
  | x :: xs =>
    (dateRange x.1 (xs.getLast?.getD x).1).map
      (fun d => (d, interpAt (x :: xs) d))

/-- C4 (amended). The reconstruction is a time-weighted LINEAR
INTERPOLATION over the recorded value points, not a step function: with
recorded points (d0, v0) and (d1, v1) and any day strictly between them,
the reconstructed value at that day is
`v0 + (d - d0)/(d1 - d0) * (v1 - v0)`. -/
theorem claim4_interpolated_value (d0 d1 d : ℤ) (v0 v1 : ℚ)
    (h0 : d0 < d) (h1 : d < d1) :
    (d, v0 + ((d - d0 : ℤ) : ℚ) / ((d1 - d0 : ℤ) : ℚ) * (v1 - v0)) ∈
      initialize_smooth_value_history [(d0, v0), (d1, v1)] := by
  have h01 : d0 < d1 := lt_trans h0 h1
  have hsort : sortByDate [(d0, v0), (d1, v1)] = [(d0, v0), (d1, v1)] := by
    unfold sortByDate
    simp [insertAsc, le_of_lt h01]
  unfold initialize_smooth_value_history
  rw [hsort]
  dsimp only
  rw [show (([(d1, v1)] : List (ℤ × ℚ)).getLast?.getD (d0, v0)) = (d1, v1) from rfl]
  have hinterp :
      interpAt [(d0, v0), (d1, v1)] d =
        v0 + ((d - d0 : ℤ) : ℚ) / ((d1 - d0 : ℤ) : ℚ) * (v1 - v0) := by
    unfold interpAt
    have hne0 : ¬ (d0 = d) := ne_of_lt h0
    have hne1 : ¬ (d1 = d) := ne_of_gt h1
    have hfind : List.find? (fun e => e.1 = d) [(d0, v0), (d1, v1)] = none := by
      simp [List.find?_cons, hne0, hne1]
    rw [hfind]
    have hlast : lastAtOrBefore [(d0, v0), (d1, v1)] d = some (d0, v0) := by
      unfold lastAtOrBefore
      have hf : List.filter (fun e => e.1 ≤ d) [(d0, v0), (d1, v1)] = [(d0, v0)] := by
        simp [List.filter_cons, le_of_lt h0, not_le.mpr h1]
      rw [hf]
      rfl
    have hfirst : firstAtOrAfter [(d0, v0), (d1, v1)] d = some (d1, v1) := by
      unfold firstAtOrAfter
      have hf : List.filter (fun e => d ≤ e.1) [(d0, v0), (d1, v1)] = [(d1, v1)] := by
        simp [List.filter_cons, not_le.mpr h0, le_of_lt h1]
      rw [hf]
      rfl
    rw [hlast, hfirst]
  rw [← hinterp]
  refine List.mem_map.mpr ⟨d, ?_, rfl⟩
  unfold dateRange
  rw [if_neg (not_lt.mpr (le_of_lt h01))]
  refine List.mem_map.mpr ⟨(d - d0).toNat, ?_, ?_⟩
  · rw [List.mem_range]
    omega
  · omega

/-- Witness for C4 (amended): between snapshots (1, 500) and (10, 1000),
day 5 reconstructs to 500 + (4/9)·500 = 6500/9. -/
theorem claim4_interpolated_value_witness :
    (1 : ℤ) < 5 ∧ (5 : ℤ) < 10 ∧
      ((5 : ℤ), (6500 / 9 : ℚ)) ∈
        initialize_smooth_value_history [(1, 500), (10, 1000)] := by
  refine ⟨by norm_num, by norm_num, ?_⟩
  have h := claim4_interpolated_value 1 10 5 500 1000 (by norm_num) (by norm_num)
  have he : (500 : ℚ) + ((5 - 1 : ℤ) : ℚ) / ((10 - 1 : ℤ) : ℚ) * (1000 - 500) =
      (6500 / 9 : ℚ) := by norm_num
  rw [he] at h
  exact h

/-- Counterexample for C4 as stated: the claim says the value on day 5
must equal the day-1 snapshot state (all cash, 500) priced at day 5 —
i.e. 500, not an interpolation. The code instead produces 6500/9
(≈722.2), the time interpolation between the two recorded values, while
the most recent snapshot at or before day 5 (the all-cash ledger with
500) is worth exactly 500 on day 5. -/
theorem claim4_counterexample :
    (initialize_smooth_value_history [(1, 500), (10, 1000)]).find?
        (fun e => e.1 = 5) = some (5, 6500 / 9) ∧
      Ledger.get_portfolio_value ⟨500, [], [], [], []⟩ 5 = some 500 ∧
      (6500 / 9 : ℚ) ≠ 500 := by
  refine ⟨?_, by norm_num [Ledger.get_portfolio_value, valStep], by norm_num⟩
  norm_num +decide [initialize_smooth_value_history, sortByDate, insertAsc,
    dateRange, interpAt, lastAtOrBefore, firstAtOrAfter, List.find?,
    List.filter, List.range, List.range.loop]

/-! ## Claim C5: idempotent re-rebalance — value bookkeeping toolkit -/

/-- The holdings part of the portfolio value, anchored at 0. -/
def hvals (d : ℤ) (hs : List (String × Stock × ℚ)) : Option ℚ :=
  hs.foldl (valStep d) (some 0)

theorem foldl_valStep_none (d : ℤ) (hs : List (String × Stock × ℚ)) :
    hs.foldl (valStep d) none = none := by
  induction hs with
  | nil => rfl
  | cons e es ih =>
    rw [List.foldl_cons, show valStep d none e = none from rfl]
    exact ih

theorem foldl_valStep_shift (d : ℤ) (hs : List (String × Stock × ℚ)) :
    ∀ c : ℚ, hs.foldl (valStep d) (some c) = (hvals d hs).map (fun x => c + x) := by
  unfold hvals
  induction hs with
  | nil => intro c; simp
  | cons e es ih =>
    intro c
    rw [List.foldl_cons, List.foldl_cons]
    rcases hpr : e.2.1.get_price_at_date d with _ | pr
    · rw [show valStep d (some c) e = none from by simp [valStep, hpr],
        show valStep d (some 0) e = none from by simp [valStep, hpr],
        foldl_valStep_none]
      rfl
    · rw [show valStep d (some c) e = some (c + e.2.2 * pr) from by simp [valStep, hpr],
        show valStep d (some 0) e = some (0 + e.2.2 * pr) from by simp [valStep, hpr],
        ih (c + e.2.2 * pr), ih (0 + e.2.2 * pr), Option.map_map]
      congr 1
      funext x
      dsimp only [Function.comp]
      ring

theorem gpv_eq_hvals (p : Ledger) (d : ℤ) :
    p.get_portfolio_value d = (hvals d p.holdings).map (fun x => p.cash + x) :=
  foldl_valStep_shift d p.holdings p.cash

theorem hvals_cons_none (d : ℤ) (e : String × Stock × ℚ)
    (es : List (String × Stock × ℚ))
    (hpre : e.2.1.get_price_at_date d = none) :
    hvals d (e :: es) = none := by
  unfold hvals
  rw [List.foldl_cons, show valStep d (some 0) e = none from by simp [valStep, hpre],
    foldl_valStep_none]

theorem hvals_cons_some (d : ℤ) (e : String × Stock × ℚ)
    (es : List (String × Stock × ℚ)) (pr : ℚ)
    (hpre : e.2.1.get_price_at_date d = some pr) :
    hvals d (e :: es) = (hvals d es).map (fun x => e.2.2 * pr + x) := by
  unfold hvals
  rw [List.foldl_cons, show valStep d (some 0) e = some (0 + e.2.2 * pr) from by
    simp [valStep, hpre]]
  rw [show List.foldl (valStep d) (some (0 + e.2.2 * pr)) es =
      (hvals d es).map (fun x => (0 + e.2.2 * pr) + x) from
    foldl_valStep_shift d es (0 + e.2.2 * pr)]
  congr 1
  funext x
  ring

theorem hvals_append_single (d : ℤ) (hs : List (String × Stock × ℚ))
    (t : String) (st : Stock) (sh : ℚ) (pr : ℚ)
    (hpr : st.get_price_at_date d = some pr) :
    hvals d (hs ++ [(t, st, sh)]) = (hvals d hs).map (fun x => x + sh * pr) := by
  unfold hvals
  rw [List.foldl_append]
  rcases hv : hs.foldl (valStep d) (some 0) with _ | x
  · rfl
  · simp [valStep, hpr]

theorem hvals_nonneg (d : ℤ) :
    ∀ (hs : List (String × Stock × ℚ)),
      (∀ e ∈ hs, 0 ≤ e.2.2) →
      (∀ e ∈ hs, ∀ pr, e.2.1.get_price_at_date d = some pr → 0 ≤ pr) →
      ∀ v, hvals d hs = some v → 0 ≤ v := by
  intro hs
  induction hs with
  | nil =>
    intro _ _ v hv
    unfold hvals at hv
    simp only [List.foldl_nil, Option.some.injEq] at hv
    exact hv ▸ le_refl 0
  | cons e es ih =>
    intro hsh hpr v hv
    rcases hpre : e.2.1.get_price_at_date d with _ | pre
    · rw [hvals_cons_none d e es hpre] at hv
      exact absurd hv (by simp)
    · rw [hvals_cons_some d e es pre hpre] at hv
      rcases hes : hvals d es with _ | x
      · rw [hes] at hv; exact absurd hv (by simp)
      · rw [hes] at hv
        simp only [Option.map_some', Option.some.injEq] at hv
        have hx : 0 ≤ x :=
          ih (fun e' hm => hsh e' (List.mem_cons_of_mem e hm))
            (fun e' hm => hpr e' (List.mem_cons_of_mem e hm)) x hes
        have hterm : 0 ≤ e.2.2 * pre :=
          mul_nonneg (hsh e (List.mem_cons_self e es))
            (hpr e (List.mem_cons_self e es) pre hpre)
        rw [← hv]
        linarith

theorem find?_map_keys (hs : List (String × Stock × ℚ))
    (g : String × Stock × ℚ → String × Stock × ℚ)
    (hk : ∀ e, (g e).1 = e.1) (t : String) :
    (hs.map g).find? (fun e => e.1 = t) =
      (hs.find? (fun e => e.1 = t)).map g := by
  induction hs with
  | nil => rfl
  | cons e es ih =>
    rw [List.map_cons, List.find?_cons, List.find?_cons]
    by_cases h : e.1 = t
    · simp [hk, h]
    · simp [hk, h, ih]

theorem find?_append_single_ne (hs : List (String × Stock × ℚ))
    (x : String × Stock × ℚ) (t : String) (hne : ¬ x.1 = t) :
    (hs ++ [x]).find? (fun e => e.1 = t) = hs.find? (fun e => e.1 = t) := by
  induction hs with
  | nil => simp [List.find?_cons, hne]
  | cons e es ih =>
    rw [List.cons_append, List.find?_cons, List.find?_cons]
    by_cases h : e.1 = t
    · simp [h]
    · simp [h, ih]

theorem holdsTicker_eq_true_iff_mem (hs : List (String × Stock × ℚ))
    (t : String) :
    holdsTicker hs t = true ↔ t ∈ hs.map (fun e => e.1) := by
  unfold holdsTicker
  simp only [List.any_eq_true, decide_eq_true_eq, List.mem_map]

theorem holdsTicker_eq_isSome_find? (hs : List (String × Stock × ℚ))
    (t : String) :
    holdsTicker hs t = (hs.find? (fun e => e.1 = t)).isSome := by
  induction hs with
  | nil => rfl
  | cons e es ih =>
    unfold holdsTicker
    rw [List.any_cons, List.find?_cons]
    by_cases h : e.1 = t
    · simp [h]
    · simpa [h] using ih

theorem sharesOf_eq_find? (hs : List (String × Stock × ℚ)) (t : String)
    (e₀ : String × Stock × ℚ)
    (hf : hs.find? (fun e => e.1 = t) = some e₀) :
    sharesOf hs t = e₀.2.2 := by
  unfold sharesOf
  rw [hf]
  rfl

theorem find?_key_eq {hs : List (String × Stock × ℚ)} {t : String}
    {e₀ : String × Stock × ℚ}
    (hf : hs.find? (fun e => e.1 = t) = some e₀) : e₀.1 = t := by
  have h := List.find?_some hf
  exact of_decide_eq_true h

theorem hvals_update (d : ℤ) (t : String) (u : ℚ → ℚ) :
    ∀ (hs : List (String × Stock × ℚ)) (e₀ : String × Stock × ℚ) (pr : ℚ),
      (hs.map (fun e => e.1)).Nodup →
      hs.find? (fun e => e.1 = t) = some e₀ →
      e₀.2.1.get_price_at_date d = some pr →
      hvals d (hs.map (fun e => if e.1 = t then (e.1, e.2.1, u e.2.2) else e)) =
        (hvals d hs).map (fun x => x + (u e₀.2.2 - e₀.2.2) * pr) := by
  intro hs
  induction hs with
  | nil => intro e₀ pr _ hf _; exact absurd hf (by simp)
  | cons e es ih =>
    intro e₀ pr hnd hf hpr
    rw [List.map_cons] at hnd
    have hndtail := (List.nodup_cons.mp hnd).2
    have hndhead := (List.nodup_cons.mp hnd).1
    rw [List.map_cons]
    by_cases h : e.1 = t
    · have he₀ : e₀ = e := by
        rw [List.find?_cons] at hf
        rw [decide_eq_true h] at hf
        simp only [Option.some.injEq] at hf
        exact hf.symm
      subst he₀
      have hkeys : ∀ e' ∈ es, ¬ e'.1 = t := by
        intro e' hm heq
        exact hndhead (List.mem_map.mpr ⟨e', hm, heq.trans h.symm⟩)
      have hmapid :
          es.map (fun e => if e.1 = t then (e.1, e.2.1, u e.2.2) else e) = es := by
        have h1 : es.map (fun e => if e.1 = t then (e.1, e.2.1, u e.2.2) else e) =
            es.map (fun e => e) :=
          List.map_congr_left (fun e' hm => by rw [if_neg (hkeys e' hm)])
        rw [h1, List.map_id']
      rw [if_pos h, hmapid]
      rw [hvals_cons_some d (e₀.1, e₀.2.1, u e₀.2.2) es pr (by simpa using hpr),
        hvals_cons_some d e₀ es pr hpr, Option.map_map]
      congr 1
      funext x
      dsimp only [Function.comp]
      ring
    · rw [if_neg h]
      rw [List.find?_cons] at hf
      rw [decide_eq_false h] at hf
      simp only at hf
      rcases hpre : e.2.1.get_price_at_date d with _ | pre
      · rw [hvals_cons_none d e _ hpre, hvals_cons_none d e es hpre]
        rfl
      · rw [hvals_cons_some d e _ pre hpre, hvals_cons_some d e es pre hpre,
          ih e₀ pr hndtail hf hpr, Option.map_map, Option.map_map]
        congr 1
        funext x
        dsimp only [Function.comp]
        ring

theorem hvals_remove (d : ℤ) (t : String) :
    ∀ (hs : List (String × Stock × ℚ)) (e₀ : String × Stock × ℚ) (pr : ℚ),
      (hs.map (fun e => e.1)).Nodup →
      hs.find? (fun e => e.1 = t) = some e₀ →
      e₀.2.1.get_price_at_date d = some pr →
      hvals d (removeTicker hs t) =
        (hvals d hs).map (fun x => x - e₀.2.2 * pr) := by
  intro hs
  induction hs with
  | nil => intro e₀ pr _ hf _; exact absurd hf (by simp)
  | cons e es ih =>
    intro e₀ pr hnd hf hpr
    rw [List.map_cons] at hnd
    have hndtail := (List.nodup_cons.mp hnd).2
    have hndhead := (List.nodup_cons.mp hnd).1
    unfold removeTicker
    rw [List.filter_cons]
    by_cases h : e.1 = t
    · have he₀ : e₀ = e := by
        rw [List.find?_cons] at hf
        rw [decide_eq_true h] at hf
        simp only [Option.some.injEq] at hf
        exact hf.symm
      subst he₀
      have hkeys : ∀ e' ∈ es, ¬ e'.1 = t := by
        intro e' hm heq
        exact hndhead (List.mem_map.mpr ⟨e', hm, heq.trans h.symm⟩)
      have hfid : es.filter (fun e => ¬ e.1 = t) = es :=
        List.filter_eq_self.mpr (fun e' hm => decide_eq_true (hkeys e' hm))
      rw [decide_eq_false (not_not_intro h)]
      simp only [Bool.false_eq_true, if_false]
      rw [hfid, hvals_cons_some d e₀ es pr hpr]
      rcases hes : hvals d es with _ | x
      · rfl
      · simp only [Option.map_some', Option.some.injEq]
        ring
    · rw [List.find?_cons] at hf
      rw [decide_eq_false h] at hf
      simp only at hf
      rw [decide_eq_true (show ¬ e.1 = t from h)]
      simp only [if_true]
      rcases hpre : e.2.1.get_price_at_date d with _ | pre
      · rw [hvals_cons_none d e _ hpre, hvals_cons_none d e es hpre]
        rfl
      · rw [hvals_cons_some d e _ pre hpre, hvals_cons_some d e es pre hpre]
        have hrw := ih e₀ pr hndtail hf hpr
        unfold removeTicker at hrw
        rw [hrw, Option.map_map, Option.map_map]
        congr 1
        funext x
        dsimp only [Function.comp]
        ring

theorem option_map_map_eq (o : Option ℚ) (f g h : ℚ → ℚ)
    (hc : ∀ x, f (g x) = h x) : (o.map g).map f = o.map h := by
  cases o <;> simp [hc]

theorem keys_map_update (hs : List (String × Stock × ℚ))
    (g : String × Stock × ℚ → String × Stock × ℚ)
    (hk : ∀ e, (g e).1 = e.1) :
    (hs.map g).map (fun e => e.1) = hs.map (fun e => e.1) := by
  rw [List.map_map]
  exact List.map_congr_left (fun e _ => hk e)

theorem find?_of_holds (hs : List (String × Stock × ℚ)) (t : String)
    (h : holdsTicker hs t = true) :
    ∃ e₀, hs.find? (fun e => e.1 = t) = some e₀ := by
  rw [holdsTicker_eq_isSome_find?] at h
  exact Option.isSome_iff_exists.mp h

theorem find?_of_not_holds (hs : List (String × Stock × ℚ)) (t : String)
    (h : holdsTicker hs t = false) :
    hs.find? (fun e => e.1 = t) = none := by
  rw [holdsTicker_eq_isSome_find?] at h
  rcases hf : hs.find? (fun e => e.1 = t) with _ | e
  · exact hf
  · rw [hf] at h; exact absurd h (by simp)

/-- The current value the per-instrument rebalance loop computes for a
stock: stored shares times as-of price when the ticker is held, else 0. -/
def cvOf (s : Ledger) (st : Stock) (d : ℤ) : ℚ :=
  if holdsTicker s.holdings st.ticker then
    sharesOf s.holdings st.ticker * (st.get_price_at_date d).getD 0
  else 0

theorem cvOf_congr (s q : Ledger) (st : Stock) (d : ℤ)
    (h : s.holdings.find? (fun e => e.1 = st.ticker) =
      q.holdings.find? (fun e => e.1 = st.ticker)) :
    cvOf s st d = cvOf q st d := by
  unfold cvOf
  rw [holdsTicker_eq_isSome_find?, holdsTicker_eq_isSome_find?, h]
  unfold sharesOf
  rw [h]

/-- The state invariant carried through the per-instrument loop of
`Portfolio.rebalance_portfolio_with_weights`: the up-front total value is
conserved by every trade (all at the same date and prices); cash and
share counts stay non-negative; every held stock is priced (positively)
at the date; ticker keys are unique; and any held entry whose ticker
matches a target stock stores that same stock object. -/
structure RebalInv (ws : List (Stock × ℚ)) (d : ℤ) (tv : ℚ) (s : Ledger) :
    Prop where
  val : s.get_portfolio_value d = some tv
  cash : 0 ≤ s.cash
  shnn : ∀ e ∈ s.holdings, 0 ≤ e.2.2
  prpos : ∀ e ∈ s.holdings, ∃ pr, e.2.1.get_price_at_date d = some pr ∧ 0 < pr
  nodup : (s.holdings.map (fun e => e.1)).Nodup
  consist : ∀ e ∈ s.holdings, ∀ sw ∈ ws, e.1 = sw.1.ticker → e.2.1 = sw.1

theorem addHolding_not_held (hs : List (String × Stock × ℚ)) (st : Stock)
    (sh : ℚ) (h : holdsTicker hs st.ticker = false) :
    addHolding hs st sh = hs ++ [(st.ticker, st, sh)] := by
  unfold addHolding
  rw [h]
  simp

theorem addHolding_held (hs : List (String × Stock × ℚ)) (st : Stock) (sh : ℚ)
    (h : holdsTicker hs st.ticker = true) :
    addHolding hs st sh =
      hs.map (fun e => if e.1 = st.ticker then (e.1, e.2.1, e.2.2 + sh) else e) := by
  unfold addHolding
  rw [h]
  simp

theorem find?_append_of_none (l₂ : List (String × Stock × ℚ)) (t : String) :
    ∀ hs : List (String × Stock × ℚ),
      hs.find? (fun e => e.1 = t) = none →
      (hs ++ l₂).find? (fun e => e.1 = t) = l₂.find? (fun e => e.1 = t) := by
  intro hs
  induction hs with
  | nil => intro _; rfl
  | cons e es ih =>
    intro h
    rw [List.find?_cons] at h
    rw [List.cons_append, List.find?_cons]
    rcases hd : (decide (e.1 = t)) with _ | _
    · rw [hd] at h
      simpa [hd] using ih h
    · rw [hd] at h
      exact absurd h (by simp)

theorem not_mem_keys_of_not_holds (hs : List (String × Stock × ℚ)) (t : String)
    (h : holdsTicker hs t = false) : t ∉ hs.map (fun e => e.1) := by
  intro hmem
  rw [(holdsTicker_eq_true_iff_mem hs t).mpr hmem] at h
  simp at h

theorem buyFinish_effect (ws : List (Stock × ℚ)) (d : ℤ) (tv : ℚ) (s : Ledger)
    (st : Stock) (w sh pr : ℚ)
    (hInv : RebalInv ws d tv s)
    (hsw : (st, w) ∈ ws)
    (hwnd : (ws.map (fun sw => sw.1.ticker)).Nodup)
    (hpr : st.get_price_at_date d = some pr) (hppos : 0 < pr)
    (hsh : 0 < sh) (hcost : sh * pr ≤ s.cash) :
    RebalInv ws d tv (buyFinish s st sh pr d) ∧
      sharesOf (buyFinish s st sh pr d).holdings st.ticker =
        sharesOf s.holdings st.ticker + sh ∧
      holdsTicker (buyFinish s st sh pr d).holdings st.ticker = true ∧
      (∀ t, ¬ t = st.ticker →
        (buyFinish s st sh pr d).holdings.find? (fun e => e.1 = t) =
          s.holdings.find? (fun e => e.1 = t)) := by
  unfold buyFinish
  rw [if_neg (not_le.mpr hsh)]
  rcases hheld : holdsTicker s.holdings st.ticker with _ | _
  · -- fresh entry appended at the end of the dict
    have hfnone := find?_of_not_holds s.holdings st.ticker hheld
    have hnotmem := not_mem_keys_of_not_holds s.holdings st.ticker hheld
    have hh : addHolding s.holdings st sh = s.holdings ++ [(st.ticker, st, sh)] :=
      addHolding_not_held s.holdings st sh hheld
    have hfnew : (s.holdings ++ [(st.ticker, st, sh)]).find?
        (fun e => e.1 = st.ticker) = some (st.ticker, st, sh) := by
      rw [find?_append_of_none _ _ s.holdings hfnone, List.find?_cons]
      simp
    refine ⟨⟨?_, ?_, ?_, ?_, ?_, ?_⟩, ?_, ?_, ?_⟩
    · rw [gpv_eq_hvals]
      dsimp only
      rw [hh, hvals_append_single d s.holdings st.ticker st sh pr hpr,
        option_map_map_eq (hvals d s.holdings) _ _ (fun x => s.cash + x)
          (fun x => by ring)]
      have hval := hInv.val
      rw [gpv_eq_hvals] at hval
      exact hval
    · dsimp only
      exact sub_nonneg.mpr hcost
    · dsimp only
      rw [hh]
      intro e hm
      rcases List.mem_append.mp hm with hold | hnew
      · exact hInv.shnn e hold
      · rw [List.mem_singleton.mp hnew]
        exact le_of_lt hsh
    · dsimp only
      rw [hh]
      intro e hm
      rcases List.mem_append.mp hm with hold | hnew
      · exact hInv.prpos e hold
      · rw [List.mem_singleton.mp hnew]
        exact ⟨pr, hpr, hppos⟩
    · dsimp only
      rw [hh, List.map_append]
      rw [List.nodup_append]
      refine ⟨hInv.nodup, List.nodup_singleton _, ?_⟩
      intro a ha hb
      rw [List.map_singleton, List.mem_singleton] at hb
      rw [hb] at ha
      exact hnotmem ha
    · dsimp only
      rw [hh]
      intro e hm sw hsw' hkey
      rcases List.mem_append.mp hm with hold | hnew
      · exact hInv.consist e hold sw hsw' hkey
      · rw [List.mem_singleton.mp hnew] at hkey ⊢
        have heq : (st, w) = sw :=
          List.inj_on_of_nodup_map hwnd hsw hsw' hkey
        rw [← heq]
    · dsimp only
      rw [hh]
      rw [sharesOf_eq_find? _ _ _ hfnew]
      unfold sharesOf
      rw [hfnone]
      norm_num
    · dsimp only
      rw [hh, holdsTicker_eq_isSome_find?, hfnew]
      rfl
    · intro t hne
      dsimp only
      rw [hh]
      exact find?_append_single_ne s.holdings (st.ticker, st, sh) t
        (fun h => hne h.symm)
  · -- already held: the stored share count is incremented in place
    rcases find?_of_holds s.holdings st.ticker hheld with ⟨e₀, hf₀⟩
    have hmem₀ := List.mem_of_find?_eq_some hf₀
    have hkey₀ : e₀.1 = st.ticker := find?_key_eq hf₀
    have hstock₀ : e₀.2.1 = st := hInv.consist e₀ hmem₀ (st, w) hsw hkey₀
    have hpr₀ : e₀.2.1.get_price_at_date d = some pr := by rw [hstock₀]; exact hpr
    have hh : addHolding s.holdings st sh =
        s.holdings.map
          (fun e => if e.1 = st.ticker then (e.1, e.2.1, e.2.2 + sh) else e) :=
      addHolding_held s.holdings st sh hheld
    have hk : ∀ e : String × Stock × ℚ,
        ((fun e => if e.1 = st.ticker then (e.1, e.2.1, e.2.2 + sh) else e) e).1 =
          e.1 := by
      intro e
      by_cases h : e.1 = st.ticker <;> simp [h]
    have hfmap : (s.holdings.map
        (fun e => if e.1 = st.ticker then (e.1, e.2.1, e.2.2 + sh) else e)).find?
          (fun e => e.1 = st.ticker) = some (e₀.1, e₀.2.1, e₀.2.2 + sh) := by
      rw [find?_map_keys _ _ hk, hf₀]
      simp [hkey₀]
    refine ⟨⟨?_, ?_, ?_, ?_, ?_, ?_⟩, ?_, ?_, ?_⟩
    · rw [gpv_eq_hvals]
      dsimp only
      rw [hh, hvals_update d st.ticker (fun x => x + sh) s.holdings e₀ pr
        hInv.nodup hf₀ hpr₀,
        option_map_map_eq (hvals d s.holdings) _ _ (fun x => s.cash + x)
          (fun x => by ring)]
      have hval := hInv.val
      rw [gpv_eq_hvals] at hval
      exact hval
    · dsimp only
      exact sub_nonneg.mpr hcost
    · dsimp only
      rw [hh]
      intro e hm
      rcases List.mem_map.mp hm with ⟨e', hm', he'⟩
      by_cases h : e'.1 = st.ticker
      · rw [← he']
        simp only [h, if_true]
        have h1 := hInv.shnn e' hm'
        have h2 := le_of_lt hsh
        show (0 : ℚ) ≤ e'.2.2 + sh
        linarith
      · rw [← he']
        simp only [h, if_false]
        exact hInv.shnn e' hm'
    · dsimp only
      rw [hh]
      intro e hm
      rcases List.mem_map.mp hm with ⟨e', hm', he'⟩
      by_cases h : e'.1 = st.ticker
      · rw [← he']
        simp only [h, if_true]
        exact hInv.prpos e' hm'
      · rw [← he']
        simp only [h, if_false]
        exact hInv.prpos e' hm'
    · dsimp only
      rw [hh, keys_map_update s.holdings _ hk]
      exact hInv.nodup
    · dsimp only
      rw [hh]
      intro e hm sw hsw' hkey
      rcases List.mem_map.mp hm with ⟨e', hm', he'⟩
      by_cases h : e'.1 = st.ticker
      · rw [← he'] at hkey ⊢
        simp only [h, if_true] at hkey ⊢
        exact hInv.consist e' hm' sw hsw' (by rw [← h] at hkey; exact hkey)
      · rw [← he'] at hkey ⊢
        simp only [h, if_false] at hkey ⊢
        exact hInv.consist e' hm' sw hsw' hkey
    · dsimp only
      rw [hh, sharesOf_eq_find? _ _ _ hfmap, sharesOf_eq_find? _ _ _ hf₀]
    · dsimp only
      rw [hh, holdsTicker_eq_isSome_find?, hfmap]
      rfl
    · intro t hne
      dsimp only
      rw [hh, find?_map_keys _ _ hk]
      rcases hft : s.holdings.find? (fun e => e.1 = t) with _ | e₁
      · rw [hft]
        rfl
      · rw [hft]
        have hkey₁ : e₁.1 = t := find?_key_eq hft
        have hne₁ : ¬ e₁.1 = st.ticker := by rw [hkey₁]; exact hne
        simp [hne₁]

theorem sell_stock_effect (ws : List (Stock × ℚ)) (d : ℤ) (tv : ℚ) (s q : Ledger)
    (st : Stock) (w sh pr : ℚ)
    (hInv : RebalInv ws d tv s)
    (hsw : (st, w) ∈ ws)
    (hpr : st.get_price_at_date d = some pr) (hppos : 0 < pr)
    (hsh : 0 < sh) (hle : sh ≤ sharesOf s.holdings st.ticker)
    (hheld : holdsTicker s.holdings st.ticker = true)
    (hsell : s.sell_stock st sh d = some q) :
    RebalInv ws d tv q ∧
      cvOf q st d = (sharesOf s.holdings st.ticker - sh) * pr ∧
      (∀ t, ¬ t = st.ticker →
        q.holdings.find? (fun e => e.1 = t) =
          s.holdings.find? (fun e => e.1 = t)) := by
  rcases find?_of_holds s.holdings st.ticker hheld with ⟨e₀, hf₀⟩
  have hmem₀ := List.mem_of_find?_eq_some hf₀
  have hkey₀ : e₀.1 = st.ticker := find?_key_eq hf₀
  have hstock₀ : e₀.2.1 = st := hInv.consist e₀ hmem₀ (st, w) hsw hkey₀
  have hpr₀ : e₀.2.1.get_price_at_date d = some pr := by rw [hstock₀]; exact hpr
  have howned : sharesOf s.holdings st.ticker = e₀.2.2 :=
    sharesOf_eq_find? _ _ _ hf₀
  have hk2 : ∀ e : String × Stock × ℚ,
      ((fun e => if e.1 = st.ticker then
        (e.1, e.2.1, sharesOf s.holdings st.ticker - sh) else e) e).1 = e.1 := by
    intro e
    by_cases h : e.1 = st.ticker <;> simp [h]
  have hf₁ : (setShares s.holdings st.ticker
      (sharesOf s.holdings st.ticker - sh)).find? (fun e => e.1 = st.ticker) =
      some (e₀.1, e₀.2.1, sharesOf s.holdings st.ticker - sh) := by
    unfold setShares
    rw [find?_map_keys _ _ hk2, hf₀]
    simp [hkey₀]
  have hnd₁ : ((setShares s.holdings st.ticker
      (sharesOf s.holdings st.ticker - sh)).map (fun e => e.1)).Nodup := by
    unfold setShares
    rw [keys_map_update _ _ hk2]
    exact hInv.nodup
  have hv₁ : hvals d (setShares s.holdings st.ticker
      (sharesOf s.holdings st.ticker - sh)) =
      (hvals d s.holdings).map
        (fun x => x + ((sharesOf s.holdings st.ticker - sh) - e₀.2.2) * pr) := by
    unfold setShares
    exact hvals_update d st.ticker (fun _ => sharesOf s.holdings st.ticker - sh)
      s.holdings e₀ pr hInv.nodup hf₀ hpr₀
  have hshmem : ∀ e ∈ setShares s.holdings st.ticker
      (sharesOf s.holdings st.ticker - sh),
      0 ≤ e.2.2 ∧ (∃ p2, e.2.1.get_price_at_date d = some p2 ∧ 0 < p2) ∧
        ∀ sw ∈ ws, e.1 = sw.1.ticker → e.2.1 = sw.1 := by
    intro e hm
    unfold setShares at hm
    rcases List.mem_map.mp hm with ⟨e', hm', he'⟩
    by_cases h : e'.1 = st.ticker
    · rw [← he']
      simp only [h, if_true]
      refine ⟨sub_nonneg.mpr hle, ?_, ?_⟩
      · exact hInv.prpos e' hm'
      · intro sw hsw' hkey
        exact hInv.consist e' hm' sw hsw' (by rw [← h] at hkey; exact hkey)
    · rw [← he']
      simp only [h, if_false]
      exact ⟨hInv.shnn e' hm', hInv.prpos e' hm',
        fun sw hsw' hkey => hInv.consist e' hm' sw hsw' hkey⟩
  unfold Ledger.sell_stock at hsell
  rw [if_pos hheld] at hsell
  simp only at hsell
  rw [min_eq_left hle] at hsell
  rw [if_neg (not_le.mpr hsh)] at hsell
  simp only [hpr] at hsell
  simp only [Option.some.injEq] at hsell
  subst hsell
  by_cases hrem : sharesOf s.holdings st.ticker - sh = 0
  · -- the position reaches exactly zero and is deleted
    have hesh : e₀.2.2 = sh := by rw [← howned]; linarith
    have hprv : ((e₀.1, e₀.2.1, sharesOf s.holdings st.ticker - sh) :
        String × Stock × ℚ).2.1.get_price_at_date d = some pr := hpr₀
    have hval₂ : hvals d (removeTicker (setShares s.holdings st.ticker
        (sharesOf s.holdings st.ticker - sh)) st.ticker) =
        (hvals d (setShares s.holdings st.ticker
          (sharesOf s.holdings st.ticker - sh))).map
          (fun x => x - (sharesOf s.holdings st.ticker - sh) * pr) :=
      hvals_remove d st.ticker _ _ pr hnd₁ hf₁ hprv
    have hfq : (removeTicker (setShares s.holdings st.ticker
        (sharesOf s.holdings st.ticker - sh)) st.ticker).find?
        (fun e => e.1 = st.ticker) = none :=
      find?_of_not_holds _ _ (holdsTicker_removeTicker_self _ _)
    refine ⟨⟨?_, ?_, ?_, ?_, ?_, ?_⟩, ?_, ?_⟩
    · rw [gpv_eq_hvals]
      dsimp only
      rw [if_pos hrem, hval₂, hv₁]
      have hcol : ∀ o : Option ℚ,
          (((o.map (fun x => x + ((sharesOf s.holdings st.ticker - sh) -
              e₀.2.2) * pr)).map
            (fun x => x - (sharesOf s.holdings st.ticker - sh) * pr)).map
            (fun x => s.cash + sh * pr + x)) = o.map (fun x => s.cash + x) := by
        intro o
        cases o with
        | none => rfl
        | some x =>
          simp only [Option.map_some', Option.some.injEq]
          rw [hrem, hesh]
          ring
      rw [hcol]
      have hval := hInv.val
      rw [gpv_eq_hvals] at hval
      exact hval
    · dsimp only
      have := mul_nonneg (le_of_lt hsh) (le_of_lt hppos)
      linarith [hInv.cash]
    · dsimp only
      rw [if_pos hrem]
      intro e hm
      exact (hshmem e (List.mem_of_mem_filter hm)).1
    · dsimp only
      rw [if_pos hrem]
      intro e hm
      exact (hshmem e (List.mem_of_mem_filter hm)).2.1
    · dsimp only
      rw [if_pos hrem]
      have hsub : List.Sublist
          ((removeTicker (setShares s.holdings st.ticker
            (sharesOf s.holdings st.ticker - sh)) st.ticker).map
            (fun e => e.1))
          ((setShares s.holdings st.ticker
            (sharesOf s.holdings st.ticker - sh)).map (fun e => e.1)) :=
        List.Sublist.map _ (List.filter_sublist _)
      exact hnd₁.sublist hsub
    · dsimp only
      rw [if_pos hrem]
      intro e hm
      exact (hshmem e (List.mem_of_mem_filter hm)).2.2
    · unfold cvOf
      dsimp only
      rw [if_pos hrem, holdsTicker_eq_isSome_find?, hfq, hrem]
      simp
    · intro t hne
      dsimp only
      rw [if_pos hrem,
        find?_removeTicker_ne _ st.ticker t (fun h => hne h.symm)]
      unfold setShares
      rw [find?_map_keys _ _ hk2]
      rcases hft : s.holdings.find? (fun e => e.1 = t) with _ | e₁
      · rw [hft]
        rfl
      · rw [hft]
        have hkey₁ : e₁.1 = t := find?_key_eq hft
        have hne₁ : ¬ e₁.1 = st.ticker := by rw [hkey₁]; exact hne
        simp [hne₁]
  · -- the reduced position stays in the dict
    refine ⟨⟨?_, ?_, ?_, ?_, ?_, ?_⟩, ?_, ?_⟩
    · rw [gpv_eq_hvals]
      dsimp only
      rw [if_neg hrem, hv₁]
      have hcol : ∀ o : Option ℚ,
          ((o.map (fun x => x + ((sharesOf s.holdings st.ticker - sh) -
              e₀.2.2) * pr)).map (fun x => s.cash + sh * pr + x)) =
            o.map (fun x => s.cash + x) := by
        intro o
        cases o with
        | none => rfl
        | some x =>
          simp only [Option.map_some', Option.some.injEq]
          rw [← howned]
          ring
      rw [hcol]
      have hval := hInv.val
      rw [gpv_eq_hvals] at hval
      exact hval
    · dsimp only
      have := mul_nonneg (le_of_lt hsh) (le_of_lt hppos)
      linarith [hInv.cash]
    · dsimp only
      rw [if_neg hrem]
      intro e hm
      exact (hshmem e hm).1
    · dsimp only
      rw [if_neg hrem]
      intro e hm
      exact (hshmem e hm).2.1
    · dsimp only
      rw [if_neg hrem]
      exact hnd₁
    · dsimp only
      rw [if_neg hrem]
      intro e hm
      exact (hshmem e hm).2.2
    · unfold cvOf
      dsimp only
      rw [if_neg hrem, holdsTicker_eq_isSome_find?, hf₁,
        sharesOf_eq_find? _ _ _ hf₁]
      simp [hpr]
    · intro t hne
      dsimp only
      rw [if_neg hrem]
      unfold setShares
      rw [find?_map_keys _ _ hk2]
      rcases hft : s.holdings.find? (fun e => e.1 = t) with _ | e₁
      · rw [hft]
        rfl
      · rw [hft]
        have hkey₁ : e₁.1 = t := find?_key_eq hft
        have hne₁ : ¬ e₁.1 = st.ticker := by rw [hkey₁]; exact hne
        simp [hne₁]

theorem rebalanceOne_step (ws : List (Stock × ℚ)) (d : ℤ) (tv : ℚ)
    (s s' : Ledger) (st : Stock) (w pr : ℚ)
    (hInv : RebalInv ws d tv s)
    (hsw : (st, w) ∈ ws)
    (hwnd : (ws.map (fun sw => sw.1.ticker)).Nodup)
    (hw : 0 ≤ w) (htv : 0 ≤ tv)
    (hpr : st.get_price_at_date d = some pr) (hppos : 0 < pr)
    (hstep : rebalanceOne d tv s st w = some (s', false)) :
    RebalInv ws d tv s' ∧ cvOf s' st d = tv * w ∧
      (∀ t, ¬ t = st.ticker →
        s'.holdings.find? (fun e => e.1 = t) =
          s.holdings.find? (fun e => e.1 = t)) := by
  have hprne : ¬ pr = 0 := ne_of_gt hppos
  unfold rebalanceOne at hstep
  rcases hheld : holdsTicker s.holdings st.ticker with _ | _
  · -- ticker not held up front: current value 0
    have hcond : ¬ (holdsTicker s.holdings st.ticker = true) := by
      rw [hheld]; simp
    rw [if_neg hcond] at hstep
    simp only at hstep
    have hcv0 : cvOf s st d = 0 := by
      unfold cvOf; rw [if_neg hcond]
    by_cases hgt : tv * w > 0
    · rw [if_pos hgt] at hstep
      simp only [hpr] at hstep
      rw [if_neg hprne] at hstep
      have hstb : (0 : ℚ) < (tv * w - 0) / pr := by
        apply div_pos _ hppos
        linarith
      rw [if_pos hstb] at hstep
      unfold Ledger.buy_stock_clamped at hstep
      simp only [hpr] at hstep
      by_cases hcl : (tv * w - 0) / pr * pr > s.cash
      · rw [if_pos hcl, if_neg hprne] at hstep
        simp only [Option.some.injEq, Prod.mk.injEq] at hstep
        exact absurd hstep.2 (by simp)
      · rw [if_neg hcl] at hstep
        simp only [Option.some.injEq, Prod.mk.injEq] at hstep
        rcases hstep with ⟨hs', -⟩
        subst hs'
        rcases buyFinish_effect ws d tv s st w ((tv * w - 0) / pr) pr hInv hsw
            hwnd hpr hppos hstb (not_lt.mp hcl) with ⟨hInv', hshares, hholds, hloc⟩
        refine ⟨hInv', ?_, hloc⟩
        unfold cvOf
        rw [if_pos hholds, hshares, hpr]
        have hs0 : sharesOf s.holdings st.ticker = 0 := by
          unfold sharesOf
          rw [find?_of_not_holds s.holdings st.ticker hheld]
          rfl
        rw [hs0]
        simp only [Option.getD_some]
        field_simp
    · rw [if_neg hgt] at hstep
      have hlt : ¬ ((0 : ℚ) > tv * w) := not_lt.mpr (mul_nonneg htv hw)
      rw [if_neg hlt] at hstep
      simp only [Option.some.injEq, Prod.mk.injEq] at hstep
      rcases hstep with ⟨hs', -⟩
      subst hs'
      have h0 : tv * w = 0 := le_antisymm (not_lt.mp hgt) (mul_nonneg htv hw)
      exact ⟨hInv, by rw [hcv0, h0], fun t _ => rfl⟩
  · -- held: current value is shares times price
    rw [if_pos hheld] at hstep
    simp only [hpr, Option.map_some'] at hstep
    have hcveq : cvOf s st d = sharesOf s.holdings st.ticker * pr := by
      unfold cvOf
      rw [if_pos hheld, hpr]
      rfl
    by_cases hgt : tv * w > sharesOf s.holdings st.ticker * pr
    · rw [if_pos hgt] at hstep
      rw [if_neg hprne] at hstep
      have hstb : (0 : ℚ) < (tv * w - sharesOf s.holdings st.ticker * pr) / pr := by
        apply div_pos _ hppos
        linarith
      rw [if_pos hstb] at hstep
      unfold Ledger.buy_stock_clamped at hstep
      simp only [hpr] at hstep
      by_cases hcl :
          (tv * w - sharesOf s.holdings st.ticker * pr) / pr * pr > s.cash
      · rw [if_pos hcl, if_neg hprne] at hstep
        simp only [Option.some.injEq, Prod.mk.injEq] at hstep
        exact absurd hstep.2 (by simp)
      · rw [if_neg hcl] at hstep
        simp only [Option.some.injEq, Prod.mk.injEq] at hstep
        rcases hstep with ⟨hs', -⟩
        subst hs'
        rcases buyFinish_effect ws d tv s st w
            ((tv * w - sharesOf s.holdings st.ticker * pr) / pr) pr hInv hsw
            hwnd hpr hppos hstb (not_lt.mp hcl) with ⟨hInv', hshares, hholds, hloc⟩
        refine ⟨hInv', ?_, hloc⟩
        unfold cvOf
        rw [if_pos hholds, hshares, hpr]
        simp only [Option.getD_some]
        field_simp
    · rw [if_neg hgt] at hstep
      by_cases hlt : sharesOf s.holdings st.ticker * pr > tv * w
      · rw [if_pos hlt] at hstep
        rw [if_neg hprne] at hstep
        have hsts : (0 : ℚ) <
            (sharesOf s.holdings st.ticker * pr - tv * w) / pr := by
          apply div_pos _ hppos
          linarith
        rw [if_pos hsts] at hstep
        rcases hq : s.sell_stock st
            ((sharesOf s.holdings st.ticker * pr - tv * w) / pr) d with _ | q
        · rw [hq] at hstep; exact absurd hstep (by simp)
        · rw [hq] at hstep
          simp only [Option.map_some', Option.some.injEq, Prod.mk.injEq] at hstep
          rcases hstep with ⟨hs', -⟩
          subst hs'
          have hle : (sharesOf s.holdings st.ticker * pr - tv * w) / pr ≤
              sharesOf s.holdings st.ticker := by
            rw [div_le_iff₀ hppos]
            nlinarith [mul_nonneg htv hw]
          rcases sell_stock_effect ws d tv s q st w
              ((sharesOf s.holdings st.ticker * pr - tv * w) / pr) pr hInv hsw
              hpr hppos hsts hle hheld hq with ⟨hInv', hcv', hloc⟩
          refine ⟨hInv', ?_, hloc⟩
          rw [hcv']
          field_simp
      · rw [if_neg hlt] at hstep
        simp only [Option.some.injEq, Prod.mk.injEq] at hstep
        rcases hstep with ⟨hs', -⟩
        subst hs'
        have heq : sharesOf s.holdings st.ticker * pr = tv * w :=
          le_antisymm (not_lt.mp hlt) (not_lt.mp hgt)
        exact ⟨hInv, by rw [hcveq, heq], fun t _ => rfl⟩

theorem rebalanceOne_noop (d : ℤ) (tv : ℚ) (s : Ledger) (st : Stock) (w pr : ℚ)
    (hpr : st.get_price_at_date d = some pr)
    (hcv : cvOf s st d = tv * w) :
    rebalanceOne d tv s st w = some (s, false) := by
  unfold rebalanceOne
  rcases (Bool.eq_false_or_eq_true (holdsTicker s.holdings st.ticker)).symm with
    hheld | hheld
  · have hcond : ¬ (holdsTicker s.holdings st.ticker = true) := by
      rw [hheld]; simp
    rw [if_neg hcond]
    simp only
    have h0 : tv * w = 0 := by
      unfold cvOf at hcv
      rw [if_neg hcond] at hcv
      exact hcv.symm
    rw [h0]
    rw [if_neg (lt_irrefl (0 : ℚ)), if_neg (lt_irrefl (0 : ℚ))]
  · rw [if_pos hheld, hpr]
    simp only [Option.map_some']
    have hcv' : sharesOf s.holdings st.ticker * pr = tv * w := by
      unfold cvOf at hcv
      rw [if_pos hheld, hpr] at hcv
      exact hcv
    rw [hcv']
    rw [if_neg (lt_irrefl (tv * w)), if_neg (lt_irrefl (tv * w))]

theorem rebalanceFold_flag_false (d : ℤ) (tv : ℚ) :
    ∀ (rest : List (Stock × ℚ)) (s : Ledger) (b : Bool) (s' : Ledger),
      rebalanceFold d tv s b rest = some (s', false) → b = false := by
  intro rest
  induction rest with
  | nil =>
    intro s b s' h
    unfold rebalanceFold at h
    simp only [Option.some.injEq, Prod.mk.injEq] at h
    exact h.2
  | cons sw rest' ih =>
    intro s b s' h
    unfold rebalanceFold at h
    rcases hone : rebalanceOne d tv s sw.1 sw.2 with _ | r
    · rw [hone] at h; exact absurd h (by simp)
    · rcases r with ⟨q, fl'⟩
      simp only [hone] at h
      have hb := ih q (b || fl') s' h
      cases b with
      | false => rfl
      | true => simp at hb

theorem rebalanceFold_achieves (ws : List (Stock × ℚ)) (d : ℤ) (tv : ℚ)
    (hwnd : (ws.map (fun sw => sw.1.ticker)).Nodup)
    (htv : 0 ≤ tv) :
    ∀ (rest : List (Stock × ℚ)) (s s' : Ledger) (b : Bool),
      (∀ sw ∈ rest, sw ∈ ws) →
      (rest.map (fun sw => sw.1.ticker)).Nodup →
      (∀ sw ∈ rest, 0 ≤ sw.2) →
      (∀ sw ∈ rest, ∃ pr, sw.1.get_price_at_date d = some pr ∧ 0 < pr) →
      RebalInv ws d tv s →
      rebalanceFold d tv s b rest = some (s', false) →
      RebalInv ws d tv s' ∧
        (∀ sw ∈ rest, cvOf s' sw.1 d = tv * sw.2) ∧
        (∀ t, t ∉ rest.map (fun sw => sw.1.ticker) →
          s'.holdings.find? (fun e => e.1 = t) =
            s.holdings.find? (fun e => e.1 = t)) := by
  intro rest
  induction rest with
  | nil =>
    intro s s' b _ _ _ _ hInv h
    unfold rebalanceFold at h
    simp only [Option.some.injEq, Prod.mk.injEq] at h
    rcases h with ⟨hs, -⟩
    subst hs
    exact ⟨hInv, by simp, fun t _ => rfl⟩
  | cons sw rest' ih =>
    intro s s' b hsub hnd hw hprs hInv h
    unfold rebalanceFold at h
    rcases hone : rebalanceOne d tv s sw.1 sw.2 with _ | r
    · rw [hone] at h; exact absurd h (by simp)
    · rcases r with ⟨q, fl'⟩
      simp only [hone] at h
      have hb : (b || fl') = false := rebalanceFold_flag_false d tv rest' q _ s' h
      have hfl' : fl' = false := by
        cases fl' with
        | false => rfl
        | true => simp at hb
      subst hfl'
      rcases hprs sw (List.mem_cons_self sw rest') with ⟨pr, hpr, hppos⟩
      have hsw : (sw.1, sw.2) ∈ ws := by
        rw [Prod.mk.eta]
        exact hsub sw (List.mem_cons_self sw rest')
      rcases rebalanceOne_step ws d tv s q sw.1 sw.2 pr hInv hsw hwnd
          (hw sw (List.mem_cons_self sw rest')) htv hpr hppos hone with
        ⟨hInvq, hcvq, hlocq⟩
      rw [Bool.or_false] at h
      rw [List.map_cons] at hnd
      have hhead : sw.1.ticker ∉ rest'.map (fun sw => sw.1.ticker) :=
        (List.nodup_cons.mp hnd).1
      have hnd' : (rest'.map (fun sw => sw.1.ticker)).Nodup :=
        (List.nodup_cons.mp hnd).2
      rcases ih q s' b (fun x hx => hsub x (List.mem_cons_of_mem _ hx)) hnd'
          (fun x hx => hw x (List.mem_cons_of_mem _ hx))
          (fun x hx => hprs x (List.mem_cons_of_mem _ hx)) hInvq h with
        ⟨hInv', hcv', hloc'⟩
      refine ⟨hInv', ?_, ?_⟩
      · intro sw' hm
        rcases List.mem_cons.mp hm with heq | hm'
        · subst heq
          calc cvOf s' sw'.1 d = cvOf q sw'.1 d :=
                cvOf_congr s' q sw'.1 d (hloc' sw'.1.ticker hhead)
            _ = tv * sw'.2 := hcvq
        · exact hcv' sw' hm'
      · intro t ht
        rw [List.map_cons] at ht
        have ht1 : ¬ t = sw.1.ticker := fun he =>
          ht (by rw [he]; exact List.mem_cons_self _ _)
        have ht2 : t ∉ rest'.map (fun sw => sw.1.ticker) := fun hm =>
          ht (List.mem_cons_of_mem _ hm)
        rw [hloc' t ht2, hlocq t ht1]

theorem rebalanceFold_noop (d : ℤ) (tv : ℚ) :
    ∀ (ws : List (Stock × ℚ)) (s : Ledger),
      (∀ sw ∈ ws, rebalanceOne d tv s sw.1 sw.2 = some (s, false)) →
      rebalanceFold d tv s false ws = some (s, false) := by
  intro ws
  induction ws with
  | nil => intro s _; rfl
  | cons sw rest ih =>
    intro s hall
    unfold rebalanceFold
    rw [hall sw (List.mem_cons_self sw rest)]
    exact ih s (fun x hx => hall x (List.mem_cons_of_mem _ hx))

/-- C5 (amended). Idempotent re-rebalance holds exactly when the first
rebalance was never cash-clamped: if the first call of
`Portfolio.rebalance_portfolio_with_weights` runs with the
insufficient-cash clamp never firing (flag `false`), over target stocks
with positive as-of prices, non-negative weights and distinct tickers,
on a well-formed ledger (non-negative cash and share counts, every held
stock priced positively, unique ticker keys, held entries matching
target tickers storing the same stock object), then the second identical
call trades nothing: it returns the same ledger with only the two
snapshot entries appended — cash, holdings and the trade log unchanged.
When a buy IS clamped, a second call can trade (see the
counterexample). -/
theorem claim5_idempotent_rebalance (p p₁ : Ledger) (ws : List (Stock × ℚ))
    (d : ℤ)
    (hwnd : (ws.map (fun sw => sw.1.ticker)).Nodup)
    (hw : ∀ sw ∈ ws, 0 ≤ sw.2)
    (hwpr : ∀ sw ∈ ws, ∃ pr, sw.1.get_price_at_date d = some pr ∧ 0 < pr)
    (hcash : 0 ≤ p.cash)
    (hsh : ∀ e ∈ p.holdings, 0 ≤ e.2.2)
    (hhpr : ∀ e ∈ p.holdings, ∃ pr, e.2.1.get_price_at_date d = some pr ∧ 0 < pr)
    (hnd : (p.holdings.map (fun e => e.1)).Nodup)
    (hcons : ∀ e ∈ p.holdings, ∀ sw ∈ ws, e.1 = sw.1.ticker → e.2.1 = sw.1)
    (hfirst : p.rebalance_flag ws d = some (p₁, false)) :
    ∃ tv : ℚ, p₁.get_portfolio_value d = some tv ∧
      p₁.rebalance_portfolio_with_weights ws d =
        some { p₁ with
          holdings_history := p₁.holdings_history ++ [(d, p₁.holdings)]
          value_history := p₁.value_history ++ [(d, tv)] } := by
  unfold Ledger.rebalance_flag at hfirst
  rcases htv : p.get_portfolio_value d with _ | tv
  · rw [htv] at hfirst; exact absurd hfirst (by simp)
  · simp only [htv] at hfirst
    rcases hfold : rebalanceFold d tv p false ws with _ | r
    · rw [hfold] at hfirst; exact absurd hfirst (by simp)
    · rcases r with ⟨q, fl⟩
      simp only [hfold] at hfirst
      rcases htv2 : q.get_portfolio_value d with _ | tv2
      · rw [htv2] at hfirst; exact absurd hfirst (by simp)
      · simp only [htv2, Option.some.injEq, Prod.mk.injEq] at hfirst
        rcases hfirst with ⟨hp₁, hfl⟩
        subst hfl
        have htvpos : 0 ≤ tv := by
          have hge := gpv_eq_hvals p d
          rw [htv] at hge
          rcases hval : hvals d p.holdings with _ | x
          · rw [hval] at hge; exact absurd hge (by simp)
          · rw [hval] at hge
            simp only [Option.map_some', Option.some.injEq] at hge
            have hx : 0 ≤ x := by
              refine hvals_nonneg d p.holdings hsh ?_ x hval
              intro e hm pr hp
              rcases hhpr e hm with ⟨pr', hp', hpos'⟩
              rw [hp] at hp'
              simp only [Option.some.injEq] at hp'
              rw [hp']
              exact le_of_lt hpos'
            rw [hge]
            exact add_nonneg hcash hx
        have hInvp : RebalInv ws d tv p := ⟨htv, hcash, hsh, hhpr, hnd, hcons⟩
        rcases rebalanceFold_achieves ws d tv hwnd htvpos ws p q false
            (fun x hx => hx) hwnd hw hwpr hInvp hfold with ⟨hInvq, hcvq, -⟩
        subst hp₁
        refine ⟨tv, hInvq.val, ?_⟩
        unfold Ledger.rebalance_portfolio_with_weights Ledger.rebalance_flag
        have hgpv₁ : ({ q with
            holdings_history := q.holdings_history ++ [(d, q.holdings)]
            value_history := q.value_history ++ [(d, tv2)] } :
            Ledger).get_portfolio_value d = some tv := hInvq.val
        have hnoop : rebalanceFold d tv ({ q with
            holdings_history := q.holdings_history ++ [(d, q.holdings)]
            value_history := q.value_history ++ [(d, tv2)] } : Ledger) false ws =
            some ({ q with
              holdings_history := q.holdings_history ++ [(d, q.holdings)]
              value_history := q.value_history ++ [(d, tv2)] }, false) := by
          refine rebalanceFold_noop d tv ws _ ?_
          intro sw hm
          rcases hwpr sw hm with ⟨pr, hpr, hppos⟩
          exact rebalanceOne_noop d tv _ sw.1 sw.2 pr hpr (hcvq sw hm)
        simp only [hgpv₁, hnoop, Option.map_some']

/-- A stock "B" priced 2 from day 0 on. -/
def stockB : Stock := ⟨"B", [(0, 2)]⟩

/-- All-cash ledger with 100 of cash. -/
def ledgerC5 : Ledger := ⟨100, [], [], [], []⟩

/-- The ledger after rebalancing `ledgerC5` to 50% stock B at price 2:
25 shares bought for 50, one BUY logged, snapshots appended. -/
def ledgerC5After : Ledger :=
  ⟨50, [("B", stockB, 25)], [⟨"BUY", "B", 25, 0, some 2⟩],
    [(0, [("B", stockB, 25)])], [(0, 100)]⟩

/-- Witness for C5 (amended): the first 50%-B rebalance executes
unclamped (flag false), and the second identical call only appends
snapshots — cash 50, the 25-share holding and the 1-entry trade log are
untouched. -/
theorem claim5_idempotent_rebalance_witness :
    ledgerC5.rebalance_flag [(stockB, 1/2)] 0 = some (ledgerC5After, false) ∧
      ∃ tv : ℚ, ledgerC5After.get_portfolio_value 0 = some tv ∧
        ledgerC5After.rebalance_portfolio_with_weights [(stockB, 1/2)] 0 =
          some { ledgerC5After with
            holdings_history :=
              ledgerC5After.holdings_history ++ [(0, ledgerC5After.holdings)]
            value_history := ledgerC5After.value_history ++ [(0, tv)] } := by
  have hfirst : ledgerC5.rebalance_flag [(stockB, 1/2)] 0 =
      some (ledgerC5After, false) := by
    norm_num +decide [Ledger.rebalance_flag, rebalanceFold, rebalanceOne,
      Ledger.buy_stock_clamped, buyFinish, addHolding, holdsTicker, sharesOf,
      Ledger.get_portfolio_value, valStep, Stock.get_price_at_date,
      lastAtOrBefore, log_trade, ledgerC5, stockB, ledgerC5After, List.find?,
      List.filter]
  refine ⟨hfirst, ?_⟩
  refine claim5_idempotent_rebalance ledgerC5 ledgerC5After [(stockB, 1/2)] 0
    (by simp) ?_ ?_ (by norm_num [ledgerC5]) (by simp [ledgerC5])
    (by simp [ledgerC5]) (by simp [ledgerC5]) (by simp [ledgerC5]) hfirst
  · intro sw hm
    rw [List.mem_singleton] at hm
    subst hm
    norm_num
  · intro sw hm
    rw [List.mem_singleton] at hm
    subst hm
    refine ⟨2, ?_, by norm_num⟩
    norm_num +decide [Stock.get_price_at_date, lastAtOrBefore, stockB,
      List.find?, List.filter]

/-- A stock "A" priced 1 from day 0 on. -/
def stA1 : Stock := ⟨"A", [(0, 1)]⟩

/-- A stock "B" priced 1 from day 0 on. -/
def stB1 : Stock := ⟨"B", [(0, 1)]⟩

/-- Ledger fully invested in A: 100 shares at price 1, cash 0. -/
def ledgerCex : Ledger := ⟨0, [("A", stA1, 100)], [], [], []⟩

/-- Target weights 60% B, 40% A, in that (insertion) order. -/
def wsCex : List (Stock × ℚ) := [(stB1, 3/5), (stA1, 2/5)]

/-- After the first rebalance: the B buy was clamped to 0 shares (cash
was 0 when B was processed), then 60 shares of A were sold. -/
def ledgerCex1 : Ledger :=
  ⟨60, [("A", stA1, 40)], [⟨"SELL", "A", 60, 0, some 1⟩],
    [(0, [("A", stA1, 40)])], [(0, 100)]⟩

/-- After the second rebalance: now cash suffices and 60 shares of B are
bought — the second call DID trade. -/
def ledgerCex2 : Ledger :=
  ⟨0, [("A", stA1, 40), ("B", stB1, 60)],
    [⟨"SELL", "A", 60, 0, some 1⟩, ⟨"BUY", "B", 60, 0, some 1⟩],
    [(0, [("A", stA1, 40)]), (0, [("A", stA1, 40), ("B", stB1, 60)])],
    [(0, 100), (0, 100)]⟩

/-- Counterexample for C5 as stated: rebalancing a ledger fully invested
in A to weights {B: 0.6, A: 0.4} twice is NOT idempotent. In the first
call the B buy is clamped to nothing (no cash yet when B is processed,
in dict order, before the A sell frees 60 of cash); the second call then
buys 60 shares of B: the trade log grows from 1 to 2 entries and cash
changes from 60 to 0. -/
theorem claim5_counterexample :
    ledgerCex.rebalance_portfolio_with_weights wsCex 0 = some ledgerCex1 ∧
      ledgerCex1.rebalance_portfolio_with_weights wsCex 0 = some ledgerCex2 ∧
      ledgerCex1.trade_log.length = 1 ∧ ledgerCex2.trade_log.length = 2 ∧
      ¬ ledgerCex2.cash = ledgerCex1.cash := by
  refine ⟨?_, ?_, by norm_num [ledgerCex1], by norm_num [ledgerCex2],
    by norm_num [ledgerCex1, ledgerCex2]⟩ <;>
    norm_num +decide [Ledger.rebalance_portfolio_with_weights,
      Ledger.rebalance_flag, rebalanceFold, rebalanceOne,
      Ledger.buy_stock_clamped, Ledger.sell_stock, buyFinish, addHolding,
      holdsTicker, sharesOf, setShares, removeTicker,
      Ledger.get_portfolio_value, valStep, Stock.get_price_at_date,
      lastAtOrBefore, log_trade, ledgerCex, ledgerCex1, ledgerCex2, stA1,
      stB1, wsCex, List.find?, List.filter]

/-! ## Claim C6: buy error handling -/

/-- C6 (amended). `Portfolio.buy_stock` is a silent no-op only in the
shares-not-positive cases: with an available price it no-ops both when
the requested share count is `≤ 0` (and unclamped) and when the
insufficient-cash clamp floors the count to `≤ 0`; but with an
UNAVAILABLE price it raises a `TypeError` (`shares * None`), modelled as
`none` — it is not a no-op. -/
theorem claim6_buy_silent_noop (p : Ledger) (stP stC stN : Stock)
    (shP shC prP prC : ℚ) (d : ℤ)
    (hprP : stP.get_price_at_date d = some prP)
    (hshP : shP ≤ 0) (hcostP : ¬ shP * prP > p.cash)
    (hprC : stC.get_price_at_date d = some prC) (hneC : ¬ prC = 0)
    (hoverC : shC * prC > p.cash) (hflC : ((⌊p.cash / prC⌋ : ℤ) : ℚ) ≤ 0)
    (hnone : stN.get_price_at_date d = none) :
    p.buy_stock stP shP d = some p ∧
      p.buy_stock stC shC d = some p ∧
      p.buy_stock stN shP d = none := by
  refine ⟨?_, ?_, ?_⟩
  · unfold Ledger.buy_stock
    simp only [hprP]
    rw [if_neg hcostP]
    unfold buyFinish
    rw [if_pos hshP]
  · unfold Ledger.buy_stock
    simp only [hprC]
    rw [if_pos hoverC, if_neg hneC]
    unfold buyFinish
    rw [if_pos hflC]
  · unfold Ledger.buy_stock
    rw [hnone]

/-- A stock with no recorded prices at all. -/
def stockN : Stock := ⟨"N", []⟩

/-- Ledger with 50 of cash used by the C6 scenarios. -/
def ledgerC6 : Ledger := ⟨50, [], [], [], []⟩

/-- Witness for C6 (amended): with cash 50 and stock A priced 100, a
requested buy of -5 shares and a cash-clamped buy of 100 shares
(⌊50/100⌋ = 0) are both silent no-ops, while buying the priceless stock
N raises. -/
theorem claim6_buy_silent_noop_witness :
    ledgerC6.buy_stock stockA (-5) 0 = some ledgerC6 ∧
      ledgerC6.buy_stock stockA 100 0 = some ledgerC6 ∧
      ledgerC6.buy_stock stockN (-5) 0 = none := by
  refine claim6_buy_silent_noop ledgerC6 stockA stockA stockN (-5) 100 100 100 0
    ?_ (by norm_num) (by norm_num [ledgerC6]) ?_ (by norm_num)
    (by norm_num [ledgerC6]) ?_ ?_
  · norm_num +decide [Stock.get_price_at_date, lastAtOrBefore, stockA,
      List.find?, List.filter]
  · norm_num +decide [Stock.get_price_at_date, lastAtOrBefore, stockA,
      List.find?, List.filter]
  · norm_num [ledgerC6]
  · norm_num +decide [Stock.get_price_at_date, lastAtOrBefore, stockN,
      List.find?, List.filter]

/-- Counterexample for C6 as stated: buying a stock whose price is
unavailable at the date is NOT a silent no-op — the Python code raises a
`TypeError` at `cost = shares * price` with `price = None` (modelled by
`none`), instead of leaving the ledger unchanged. -/
theorem claim6_counterexample :
    ledger0.buy_stock stockN 5 0 = none ∧
      ¬ ledger0.buy_stock stockN 5 0 = some ledger0 := by
  have h : ledger0.buy_stock stockN 5 0 = none := by
    norm_num +decide [Ledger.buy_stock, Stock.get_price_at_date,
      lastAtOrBefore, stockN, List.find?, List.filter]
  exact ⟨h, by rw [h]; simp⟩

/-! ## Claim C7: z-score normalization and winsorization
(src/algorithims/momentum.py lines 37-42, 83-87) -/

open Classical in
/-- `MomentumStrategy.get_z_score` (src/algorithims/momentum.py lines
37-42): 0 when the std is zero, otherwise the z-score winsorized into
[-3, 3]. Over the reals, since the std comes from a float `sqrt`. -/
noncomputable def get_z_score (value mean std : ℝ) : ℝ :=
  if std = 0 then 0 else max (min ((value - mean) / std) 3) (-3)

/-- `df["risk_adj"].mean()`: arithmetic mean of the cross-section. -/
noncomputable def meanR (l : List ℝ) : ℝ := l.sum / l.length

/-- The sample variance, ddof = 1: sum of squared deviations divided by
(n - 1). Models pandas only for cross-sections of two or more values —
`sampleStd?` below keeps it behind that guard, since Lean's 0/0 = 0
would otherwise silently tame the n = 1 case that pandas makes NaN. -/
noncomputable def sampleVar (l : List ℝ) : ℝ :=
  ((l.map (fun x => (x - meanR l) ^ 2)).sum) / ((l.length : ℝ) - 1)

/-- `df["risk_adj"].std()` — pandas uses the SAMPLE standard deviation,
ddof = 1, which is NaN (modelled `none`) on a cross-section of fewer
than two values: the 0/0 at n = 1, and the empty mean at n = 0. -/
noncomputable def sampleStd? (l : List ℝ) : Option ℝ :=
  if l.length < 2 then none else some (Real.sqrt (sampleVar l))

/-- Modelled from the spec: the POPULATION variance the spec's
"z-score with population mean/std" sentence describes — sum of squared
deviations divided by n. -/
noncomputable def popVar (l : List ℝ) : ℝ :=
  ((l.map (fun x => (x - meanR l) ^ 2)).sum) / (l.length : ℝ)

/-- Modelled from the spec: the population standard deviation. -/
noncomputable def popStd (l : List ℝ) : ℝ := Real.sqrt (popVar l)

/-- The z-score the code computes for a value `x` of the surviving
cross-section `l` (src/algorithims/momentum.py line 86): mean and SAMPLE
std of the cross-section, winsorized. A NaN std (`none`) slips past the
`std == 0` guard of `get_z_score` — momentum.py has no `np.isnan` check,
unlike momentumFCF.py — and `(x - mean)/NaN`, `min` and `max` all
propagate it, so the computed z-score is NaN, modelled `none`. -/
noncomputable def z_code (l : List ℝ) (x : ℝ) : Option ℝ :=
  (sampleStd? l).map (get_z_score x (meanR l))

/-- Modelled from the spec: the z-score with the population std the spec
describes. -/
noncomputable def z_spec (l : List ℝ) (x : ℝ) : ℝ :=
  get_z_score x (meanR l) (popStd l)

theorem sqrt_two_pos : (0 : ℝ) < Real.sqrt 2 :=
  Real.sqrt_pos.mpr (by norm_num)

/-- Evaluating the code's z-score on the two-element cross-section
{0, 2} at the value 2: sample variance 2 (ddof = 1), std √2, z-score
(2 - 1)/√2 = 1/√2, inside the winsorization band. -/
theorem z_code_pair_eval : z_code [0, 2] 2 = some (1 / Real.sqrt 2) := by
  have hmean : meanR [0, 2] = 1 := by
    unfold meanR
    norm_num
  have hsv : sampleVar [0, 2] = 2 := by
    unfold sampleVar
    rw [hmean]
    norm_num
  have hss : sampleStd? [0, 2] = some (Real.sqrt 2) := by
    unfold sampleStd?
    rw [if_neg (by norm_num), hsv]
  have h2pos := sqrt_two_pos
  unfold z_code
  rw [hss, Option.map_some']
  congr 1
  unfold get_z_score
  rw [hmean, if_neg (ne_of_gt h2pos)]
  have h2ge1 : (1 : ℝ) ≤ Real.sqrt 2 := by
    rw [show (1 : ℝ) = Real.sqrt 1 from Real.sqrt_one.symm]
    exact Real.sqrt_le_sqrt (by norm_num)
  have hle1 : (2 - 1) / Real.sqrt 2 ≤ 1 := by
    rw [div_le_one h2pos]
    linarith
  have hnn : (0 : ℝ) ≤ (2 - 1) / Real.sqrt 2 := by positivity
  rw [min_eq_left (by linarith), max_eq_left (by linarith)]
  norm_num

/-- C7 (amended). Every DEFINED z-score the momentum code computes lies
in [-3, 3]: whenever the cross-section's sample std is not NaN (at least
two survivors), the computed z-score is winsorized into the band,
including the std-zero case, which returns 0. On a single-survivor
cross-section the sample std is NaN and the computed z-score is NaN
(`none`), outside any bound — see the counterexample. -/
theorem claim7_winsorization_bound (l : List ℝ) (x z : ℝ)
    (hz : z_code l x = some z) : -3 ≤ z ∧ z ≤ 3 := by
  unfold z_code at hz
  rcases hs : sampleStd? l with _ | s
  · rw [hs] at hz
    simp at hz
  · rw [hs] at hz
    simp only [Option.map_some', Option.some.injEq] at hz
    subst hz
    unfold get_z_score
    by_cases h : s = 0
    · rw [if_pos h]
      norm_num
    · rw [if_neg h]
      exact ⟨le_max_right _ _, max_le (min_le_right _ _) (by norm_num)⟩

/-- Witness for C7 (amended): on the cross-section {0, 2} the computed
z-score of 2 is defined — it is 1/√2 — and lies in [-3, 3]. -/
theorem claim7_winsorization_bound_witness :
    z_code [0, 2] 2 = some (1 / Real.sqrt 2) ∧
      -3 ≤ 1 / Real.sqrt 2 ∧ 1 / Real.sqrt 2 ≤ 3 :=
  ⟨z_code_pair_eval, claim7_winsorization_bound [0, 2] 2 _ z_code_pair_eval⟩

/-- Counterexample for C7 as stated: (i) on the cross-section {0, 2} the
code's z-score of the value 2 is 1/√2 (sample std √2, ddof = 1), while
the spec's population-std z-score is exactly 1 — the code does NOT use
the population standard deviation; and (ii) on the single-survivor
cross-section {5} the sample std is NaN, momentum.py's `get_z_score`
checks only `std == 0` (no `np.isnan` guard, unlike momentumFCF.py), so
the computed z-score is NaN (`none`) — it is not a number in [-3, 3]. -/
theorem claim7_counterexample :
    z_code [0, 2] 2 ≠ some (z_spec [0, 2] 2) ∧ z_spec [0, 2] 2 = 1 ∧
      z_code [5] 0 = none := by
  have hmean : meanR [0, 2] = 1 := by
    unfold meanR
    norm_num
  have hpv : popVar [0, 2] = 1 := by
    unfold popVar
    rw [hmean]
    norm_num
  have hps : popStd [0, 2] = 1 := by
    unfold popStd
    rw [hpv]
    exact Real.sqrt_one
  have h2pos := sqrt_two_pos
  have hspec : z_spec [0, 2] 2 = 1 := by
    unfold z_spec get_z_score
    rw [hps, hmean]
    rw [if_neg (by norm_num : (1 : ℝ) ≠ 0)]
    norm_num
  refine ⟨?_, hspec, ?_⟩
  · rw [z_code_pair_eval, hspec]
    intro heq
    simp only [Option.some.injEq] at heq
    have hs1 : (1 : ℝ) = Real.sqrt 2 :=
      (div_eq_one_iff_eq (ne_of_gt h2pos)).mp heq
    have h21 : (2 : ℝ) = 1 := by
      have := Real.sq_sqrt (by norm_num : (0 : ℝ) ≤ 2)
      rw [← hs1] at this
      linarith [this]
    norm_num at h21
  · unfold z_code sampleStd?
    rw [if_pos (by norm_num)]
    rfl

/-! ## Claim C8: zero-total division guards
(src/algorithims/momentum.py lines 115-141,
src/algorithims/momentumFCF.py lines 199-243)

Steps 4-8 of both `get_stocks_and_weights` methods, which turn the
selected cross-section into final weights. A row of `df_selected` is
embedded as its ticker, its market cap as of the date (`none` when
`get_market_cap_at_date` returns `None`) and its score (momentum score
resp. combined score). Division by zero — a Python `ZeroDivisionError`
on scalars, or a division by a zero total that floods the returned
weights with NaN/inf through pandas — is modelled as `none`. -/

/-- One row of the selected cross-section: ticker, market cap as of the
rebalance date (`none` = unavailable), and score. -/
structure Row where
  ticker : String
  cap : Option ℚ
  score : ℚ
deriving DecidableEq, Repr

/-- Python/pandas division with a zero divisor modelled as `none`
(scalar `ZeroDivisionError`, or NaN/inf contaminating the returned
weights when a pandas column is divided by a zero total). -/
def divQ? (a b : ℚ) : Option ℚ := if b = 0 then none else some (a / b)

/-- `df_selected["ticker"].map(ref_weights).fillna(0)`: look a ticker up
in an association list, defaulting to 0. -/
def lookupD (l : List (String × ℚ)) (t : String) (d : ℚ) : ℚ :=
  match l.find? (fun e => e.1 = t) with
  | some e => e.2
  | none => d

/-- Steps 4-8 of `MomentumStrategy.get_stocks_and_weights`
(src/algorithims/momentum.py lines 115-141): reference weights from ALL
available market caps (no positivity filter, no zero-total guard), raw
weight = cap x momentum score (a missing cap makes the row's weight NaN,
modelled as `none`), uncapped = raw / total_raw (no guard), cap at
min(9%, 3 x ref weight), final = capped / total_capped (no guard). -/
def momentum_tail (univ : List (String × Option ℚ))
    (selected : List Row) : Option (List (String × ℚ)) :=
  let availCaps := univ.filterMap (fun su => su.2.map (fun c => (su.1, c)))
  let total_cap := (availCaps.map Prod.snd).sum
  match availCaps.mapM
      (fun tc => (divQ? tc.2 total_cap).map (fun w => (tc.1, w))) with
  | none => none
  | some ref_weights =>
    match selected.mapM
        (fun r => r.cap.map (fun c => (r.ticker, c * r.score))) with
    | none => none
    | some raws =>
      let total_raw := (raws.map Prod.snd).sum
      match raws.mapM (fun rc => (divQ? rc.2 total_raw).map (fun w =>
          (rc.1, min w (min (9 / 100) (3 * lookupD ref_weights rc.1 0))))) with
      | none => none
      | some capped =>
        let total_capped := (capped.map Prod.snd).sum
        capped.mapM
          (fun tc => (divQ? tc.2 total_capped).map (fun w => (tc.1, w)))

/-- `caps` of `MomentumFCFStrategy.get_stocks_and_weights` step 4
(src/algorithims/momentumFCF.py lines 200-204): the market caps of the
universe that are available AND positive. -/
def fcfCaps (univ : List (String × Option ℚ)) : List ℚ :=
  univ.filterMap
    (fun su => su.2.bind (fun c => if 0 < c then some c else none))

/-- `ref_weights` of momentumFCF.py lines 214-218: available positive
caps divided by the (positive, already-guarded) total cap. -/
def fcfRefWeights (univ : List (String × Option ℚ)) :
    List (String × ℚ) :=
  univ.filterMap (fun su => su.2.bind (fun c =>
    if 0 < c then some (su.1, c / (fcfCaps univ).sum) else none))

/-- `raw_weight` column of momentumFCF.py lines 221-223: market cap with
`fillna(0.0)` times the combined score. -/
def fcfRaws (selected : List Row) : List (String × ℚ) :=
  selected.map (fun r => (r.ticker, r.cap.getD 0 * r.score))

/-- `total_raw` of momentumFCF.py line 225. -/
def fcfTotalRaw (selected : List Row) : ℚ :=
  ((fcfRaws selected).map Prod.snd).sum

/-- `capped_weight` column of momentumFCF.py lines 230-235:
min(raw / total_raw, min(9%, 3 x ref weight)); only evaluated after the
`total_raw == 0` guard, so the division is by a nonzero total. -/
def fcfCapped (univ : List (String × Option ℚ)) (selected : List Row) :
    List (String × ℚ) :=
  (fcfRaws selected).map (fun rc =>
    (rc.1, min (rc.2 / fcfTotalRaw selected)
      (min (9 / 100) (3 * lookupD (fcfRefWeights univ) rc.1 0))))

/-- `final_weight` column of momentumFCF.py line 243: capped weight over
the (already-guarded, nonzero) capped total. -/
def fcfFinals (univ : List (String × Option ℚ)) (selected : List Row) :
    List (String × ℚ) :=
  (fcfCapped univ selected).map
    (fun tc => (tc.1, tc.2 / ((fcfCapped univ selected).map Prod.snd).sum))

/-- Steps 4-8 of `MomentumFCFStrategy.get_stocks_and_weights`
(src/algorithims/momentumFCF.py lines 199-257): every zero/undefined
total returns the empty mapping `{}` (lines 205-207, 210-212, 226-228,
239-241) before any division happens, and a final renormalization kicks
in when the weight sum strays from 1 by more than 1e-6 (lines 252-254).
The result is always `some`: no division by zero can occur. -/
def momentumFCF_tail (univ : List (String × Option ℚ))
    (selected : List Row) : Option (List (String × ℚ)) :=
  if fcfCaps univ = [] then some [] else
  if (fcfCaps univ).sum ≤ 0 then some [] else
  if fcfTotalRaw selected = 0 then some [] else
  if ((fcfCapped univ selected).map Prod.snd).sum = 0 then some [] else
  if 0 < ((fcfFinals univ selected).map Prod.snd).sum ∧
      1 / 1000000 < |((fcfFinals univ selected).map Prod.snd).sum - 1| then
    some ((fcfFinals univ selected).map
      (fun tw => (tw.1, tw.2 / ((fcfFinals univ selected).map Prod.snd).sum)))
  else some (fcfFinals univ selected)

/-- C8 (amended). The FCF momentum strategy guards every division: when
the total raw weight of the selected set is zero it returns the empty
mapping for that date, and on EVERY universe and selection it returns a
defined (`some`) result — no division by zero, no NaN weights. (The
plain momentum strategy has no such guards; see the counterexample.) -/
theorem claim8_zero_total_guards (univ : List (String × Option ℚ))
    (selected : List Row) (hraw : fcfTotalRaw selected = 0) :
    momentumFCF_tail univ selected = some [] ∧
      ∀ (u : List (String × Option ℚ)) (s : List Row),
        ∃ ws, momentumFCF_tail u s = some ws := by
  constructor
  · unfold momentumFCF_tail
    by_cases hc : fcfCaps univ = []
    · rw [if_pos hc]
    · rw [if_neg hc]
      by_cases hs : (fcfCaps univ).sum ≤ 0
      · rw [if_pos hs]
      · rw [if_neg hs, if_pos hraw]
  · intro u s
    unfold momentumFCF_tail
    split_ifs <;> exact ⟨_, rfl⟩

/-- Witness for C8 (amended): a single selected row with combined score
0 makes the total raw weight 0, and the FCF strategy returns the empty
mapping on it. -/
theorem claim8_zero_total_guards_witness :
    fcfTotalRaw [⟨"A", some 2, 0⟩] = 0 ∧
      momentumFCF_tail [("A", some 5)] [⟨"A", some 2, 0⟩] = some [] :=
  ⟨by norm_num [fcfTotalRaw, fcfRaws],
   (claim8_zero_total_guards [("A", some 5)] [⟨"A", some 2, 0⟩]
     (by norm_num [fcfTotalRaw, fcfRaws])).1⟩

/-- Counterexample for C8 as stated: the PLAIN momentum strategy
(momentum.py) has none of the guards. With a universe whose only market
cap is 0, the total market cap is 0 and `ref_weights` divides by it
(line 123) — a `ZeroDivisionError` / NaN weights, modelled `none` — it
does not return an empty result. The FCF strategy on the same input
returns the empty mapping. -/
theorem claim8_counterexample :
    momentum_tail [("A", some 0)] [⟨"A", some 0, 1⟩] = none ∧
      momentumFCF_tail [("A", some 0)] [⟨"A", some 0, 1⟩] = some [] := by
  constructor
  · norm_num +decide [momentum_tail, divQ?, List.filterMap]
  · norm_num +decide [momentumFCF_tail, fcfCaps, List.filterMap]

/-! ## Claim C9: the top-N strategy's weights
(src/algorithim.py lines 162-211, class TestHighestPriceStrategy) -/

/-- The sort key `stock.price_history.asof(date)` of src/algorithim.py
line 173. A NaN key (no price at or before the date) makes CPython's
sort order unspecified; we default it to 0, which coincides with the
source whenever every price is available — the regime of the C9
statements, whose stocks all carry prices. -/
def asofD (st : Stock) (d : ℤ) : ℚ := (st.price_asof d).getD 0

/-- One step of CPython's stable descending sort
(`sorted(..., key=..., reverse=True)`, src/algorithim.py line 172):
insert `x` before the first element with a strictly smaller key, after
all elements with an equal or larger key. -/
def insertByPrice (d : ℤ) (x : Stock) : List Stock → List Stock
  | [] => [x]
  | y :: ys =>
    if asofD y d ≤ asofD x d then x :: y :: ys else y :: insertByPrice d x ys

/-- `sorted(self.universe, key=lambda stock: ..., reverse=True)`
(src/algorithim.py lines 172-174) as a stable insertion sort. -/
def sortByPriceDesc (d : ℤ) : List Stock → List Stock
  | [] => []
  | x :: xs => insertByPrice d x (sortByPriceDesc d xs)

/-- The `prices` dict of `TestHighestPriceStrategy.get_stock_weights`
(src/algorithim.py lines 196-200): the stocks whose as-of price exists
and is positive, with those prices (`NaN > 0` is false in Python, so a
missing price is excluded, not an error). -/
def validPrices (stocks : List Stock) (d : ℤ) : List (Stock × ℚ) :=
  stocks.filterMap (fun st =>
    (st.price_asof d).bind (fun p => if 0 < p then some (st, p) else none))

/-- `TestHighestPriceStrategy.get_stock_weights` (src/algorithim.py
lines 182-211): each valid-priced stock gets weight price/total_price;
empty when the total is not positive. -/
def get_stock_weights (stocks : List Stock) (d : ℤ) : List (Stock × ℚ) :=
  if 0 < ((validPrices stocks d).map Prod.snd).sum then
    (validPrices stocks d).map (fun sp =>
      (sp.1, sp.2 / ((validPrices stocks d).map Prod.snd).sum))
  else []

/-- `TestHighestPriceStrategy.get_top_stocks_and_weights`
(src/algorithim.py lines 162-180): sort the universe by as-of price
descending, take the top n, weight them by `get_stock_weights`. -/
def get_top_stocks_and_weights (univ : List Stock) (d : ℤ) (n : ℕ) :
    List (Stock × ℚ) :=
  get_stock_weights ((sortByPriceDesc d univ).take n) d

/-- Summing a column divided by a constant divides the column sum. -/
theorem sum_map_snd_div (l : List (Stock × ℚ)) (c : ℚ) :
    (l.map (fun sp => sp.2 / c)).sum = (l.map Prod.snd).sum / c := by
  induction l with
  | nil => simp
  | cons a t ih => simp [ih, add_div]

/-- C9 (amended). When some selected instrument has a positive available
price, `get_stock_weights` returns exactly the valid-priced instruments
weighted PROPORTIONALLY TO PRICE — each weight is price/total_price, and
the weights sum to 1. (The weights are not 1/N; see the
counterexample.) -/
theorem claim9_price_prop_weights (stocks : List Stock) (d : ℤ)
    (hpos : 0 < ((validPrices stocks d).map Prod.snd).sum) :
    ((get_stock_weights stocks d).map Prod.snd).sum = 1 ∧
      get_stock_weights stocks d = (validPrices stocks d).map (fun sp =>
        (sp.1, sp.2 / ((validPrices stocks d).map Prod.snd).sum)) := by
  have hw : get_stock_weights stocks d = (validPrices stocks d).map
      (fun sp => (sp.1, sp.2 / ((validPrices stocks d).map Prod.snd).sum)) := by
    unfold get_stock_weights
    rw [if_pos hpos]
  refine ⟨?_, hw⟩
  rw [hw, List.map_map]
  have hcomp : (Prod.snd ∘ fun sp : Stock × ℚ =>
      (sp.1, sp.2 / ((validPrices stocks d).map Prod.snd).sum)) =
      fun sp : Stock × ℚ =>
        sp.2 / ((validPrices stocks d).map Prod.snd).sum := rfl
  rw [hcomp, sum_map_snd_div, div_self (ne_of_gt hpos)]

/-- The three instruments of the spec's top-2 scenario, priced 10, 30
and 20 on day 0. -/
def stockA9 : Stock := ⟨"A", [(0, 10)]⟩

def stockB9 : Stock := ⟨"B", [(0, 30)]⟩

def stockC9 : Stock := ⟨"C", [(0, 20)]⟩

/-- Witness for C9 (amended): on {B: 30, C: 20} the weights are
price-proportional and sum to 1. -/
theorem claim9_price_prop_weights_witness :
    0 < ((validPrices [stockB9, stockC9] 0).map Prod.snd).sum ∧
      ((get_stock_weights [stockB9, stockC9] 0).map Prod.snd).sum = 1 :=
  ⟨by norm_num +decide [validPrices, Stock.price_asof, lastAtOrBefore,
      stockB9, stockC9, List.filterMap],
   (claim9_price_prop_weights [stockB9, stockC9] 0
     (by norm_num +decide [validPrices, Stock.price_asof, lastAtOrBefore,
       stockB9, stockC9, List.filterMap])).1⟩

/-- Counterexample for C9 as stated: top-2 over {A: 10, B: 30, C: 20}
does select {B, C}, but weights them 3/5 and 2/5 (price-proportional),
not 0.5 each — the strategy is not equal-weight. -/
theorem claim9_counterexample :
    get_top_stocks_and_weights [stockA9, stockB9, stockC9] 0 2 =
      [(stockB9, 3 / 5), (stockC9, 2 / 5)] ∧ (3 / 5 : ℚ) ≠ 1 / 2 := by
  constructor
  · norm_num +decide [get_top_stocks_and_weights, sortByPriceDesc,
      insertByPrice, asofD, Stock.price_asof, lastAtOrBefore,
      get_stock_weights, validPrices, stockA9, stockB9, stockC9,
      List.filterMap]
  · norm_num

/-! ## Claim C10: the FCF strategy's selection is never empty
(src/algorithims/momentumFCF.py lines 171-197 vs
src/algorithims/momentum.py lines 89-113)

Step 3 of both strategies: sort the scored rows descending, pick the
top-20% with the 20% buffer rule, and (FCF only) fall back to the top
rows when the buffered selection ends up empty. -/

/-- One step of the stable descending sort
`df.sort_values("combined_score", ascending=False)` (momentumFCF.py
line 172, momentum.py line 90). -/
def insertByScore (x : Row) : List Row → List Row
  | [] => [x]
  | y :: ys => if y.score ≤ x.score then x :: y :: ys else y :: insertByScore x ys

/-- The scored rows sorted by score descending (stable). -/
def sortByScoreDesc : List Row → List Row
  | [] => []
  | x :: xs => insertByScore x (sortByScoreDesc xs)

/-- `np.round(total_stocks * 0.2)` (momentum.py line 92, momentumFCF.py
line 174). NumPy rounds half to even, but 0.2 x N has fractional part in
{0, .2, .4, .6, .8} — never a tie — so it agrees with Mathlib's
round-to-nearest `round`. -/
def np_round_02 (N : ℕ) : ℤ := round ((N : ℚ) / 5)

/-- `target_count = int(np.round(total_stocks * 0.2))` of the plain
momentum strategy (momentum.py line 92): NO minimum of 1. -/
def mom_target_count (N : ℕ) : ℕ := (np_round_02 N).toNat

/-- `target_count = max(1, int(np.round(total_stocks * 0.2)))` of the
FCF strategy (momentumFCF.py line 174): at least 1. -/
def fcf_target_count (N : ℕ) : ℕ := max 1 (np_round_02 N).toNat

/-- The buffer loop (momentum.py lines 100-104, momentumFCF.py lines
180-184): walk the previous constituents, adding each one that is still
in the top-120% set while the selection is below target. The selection
is a Python set, modelled as a duplicate-free list: adding a present
member changes nothing. -/
def bufferAdd (eligible : List String) (target : ℕ) :
    List String → List String → List String
  | sel, [] => sel
  | sel, t :: ts =>
    if t ∈ eligible ∧ sel.length < target then
      (if t ∈ sel then bufferAdd eligible target sel ts
       else bufferAdd eligible target (sel ++ [t]) ts)
    else bufferAdd eligible target sel ts

/-- The fill loop (momentum.py lines 107-111, momentumFCF.py lines
186-190): walk the next-best tickers, adding until the target count is
reached (the loop `break`s once the selection is full). -/
def fillAdd (target : ℕ) : List String → List String → List String
  | sel, [] => sel
  | sel, t :: ts =>
    if sel.length < target then
      (if t ∈ sel then fillAdd target sel ts
       else fillAdd target (sel ++ [t]) ts)
    else sel

/-- The `selected` ticker set after steps auto-select / buffer / fill
(lines 97-111 resp. 178-190), for the already-sorted rows `dfs` and a
target count `t`. `top_80 = int(target * 0.8)` is `4t/5` floored;
`top_120 = min(int(target * 1.2), total)` is `6t/5` floored (exact for
every target the float expression hits exactly; CPython floats can in
rare cases land one below). The fill loop walks rows `top_80` to
`t - 1`. -/
def selTickers (dfs : List Row) (prev : List String) (t : ℕ) : List String :=
  fillAdd t
    (if prev = [] then ((dfs.take ((4 * t) / 5)).map Row.ticker).dedup
     else bufferAdd ((dfs.take (min ((6 * t) / 5) dfs.length)).map Row.ticker)
       t (((dfs.take ((4 * t) / 5)).map Row.ticker).dedup) prev)
    (((dfs.drop ((4 * t) / 5)).take (t - (4 * t) / 5)).map Row.ticker)

/-- `df_selected` of the PLAIN momentum strategy (momentum.py line 113):
the sorted rows whose ticker made the selection — no fallback when
empty. -/
def mom_select (dfs : List Row) (prev : List String) : List Row :=
  (sortByScoreDesc dfs).filter (fun r => r.ticker ∈
    selTickers (sortByScoreDesc dfs) prev
      (mom_target_count (sortByScoreDesc dfs).length))

/-- `df_selected` of the FCF strategy (momentumFCF.py lines 192-197):
same filter, but an empty selection falls back to
`df.head(target_count)`. -/
def fcf_select (dfs : List Row) (prev : List String) : List Row :=
  if (sortByScoreDesc dfs).filter (fun r => r.ticker ∈
      selTickers (sortByScoreDesc dfs) prev
        (fcf_target_count (sortByScoreDesc dfs).length)) = [] then
    (sortByScoreDesc dfs).take (fcf_target_count (sortByScoreDesc dfs).length)
  else
    (sortByScoreDesc dfs).filter (fun r => r.ticker ∈
      selTickers (sortByScoreDesc dfs) prev
        (fcf_target_count (sortByScoreDesc dfs).length))

/-- `MomentumFCFStrategy.get_stocks_and_weights` from the scored rows
on: empty scored data returns `{}` (momentumFCF.py lines 137-139),
otherwise selection (step 3) feeds steps 4-8. -/
def momentumFCF_weights (univ : List (String × Option ℚ)) (dfs : List Row)
    (prev : List String) : Option (List (String × ℚ)) :=
  if dfs = [] then some [] else momentumFCF_tail univ (fcf_select dfs prev)

theorem insertByScore_length (x : Row) (l : List Row) :
    (insertByScore x l).length = l.length + 1 := by
  induction l with
  | nil => rfl
  | cons y ys ih =>
    unfold insertByScore
    by_cases h : y.score ≤ x.score
    · rw [if_pos h]
      rfl
    · rw [if_neg h]
      simp [ih]

theorem sortByScoreDesc_length (l : List Row) :
    (sortByScoreDesc l).length = l.length := by
  induction l with
  | nil => rfl
  | cons x xs ih =>
    unfold sortByScoreDesc
    rw [insertByScore_length, ih]
    rfl

theorem bufferAdd_nil_eligible (target : ℕ) (prev sel : List String) :
    bufferAdd [] target sel prev = sel := by
  induction prev generalizing sel with
  | nil => rfl
  | cons t ts ih =>
    unfold bufferAdd
    rw [if_neg (by simp)]
    exact ih sel

theorem fcfCaps_sum_pos (univ : List (String × Option ℚ))
    (h : fcfCaps univ ≠ []) : 0 < (fcfCaps univ).sum := by
  refine List.sum_pos _ ?_ h
  intro c hc
  rcases List.mem_filterMap.mp hc with ⟨su, _, hf⟩
  rcases hsu : su.2 with _ | p
  · rw [hsu] at hf
    simp at hf
  · rw [hsu] at hf
    simp only [Option.some_bind] at hf
    by_cases hp : 0 < p
    · rw [if_pos hp] at hf
      simp only [Option.some.injEq] at hf
      rw [← hf]
      exact hp
    · rw [if_neg hp] at hf
      simp at hf

theorem fcf_select_ne_nil (dfs : List Row) (prev : List String)
    (hdf : dfs ≠ []) : fcf_select dfs prev ≠ [] := by
  unfold fcf_select
  by_cases hfil : (sortByScoreDesc dfs).filter (fun r => r.ticker ∈
      selTickers (sortByScoreDesc dfs) prev
        (fcf_target_count (sortByScoreDesc dfs).length)) = []
  · rw [if_pos hfil]
    intro htake
    rcases List.take_eq_nil_iff.mp htake with ht | hs
    · exact absurd ht (by simp [fcf_target_count])
    · exact hdf (List.length_eq_zero.mp
        (by rw [← sortByScoreDesc_length, hs]; rfl))
  · rw [if_neg hfil]
    exact hfil

/-- C10 (implicit claim). Whenever the scored cross-section is
non-empty, some universe instrument has a positive market cap, and the
selection's total raw and capped weights are nonzero, the FCF strategy
returns a NON-EMPTY weight mapping — the target count is at least 1 and
an empty buffered selection falls back to the top rows. The plain
momentum strategy lacks both devices: on any single-row cross-section
its target count is round(0.2) = 0 and its selection is empty. -/
theorem claim10_fcf_nonempty_selection (univ : List (String × Option ℚ))
    (dfs : List Row) (prev : List String) (hdf : dfs ≠ [])
    (hcaps : fcfCaps univ ≠ [])
    (hraw : fcfTotalRaw (fcf_select dfs prev) ≠ 0)
    (hcap : ((fcfCapped univ (fcf_select dfs prev)).map Prod.snd).sum ≠ 0) :
    (∃ ws, momentumFCF_weights univ dfs prev = some ws ∧ ws ≠ []) ∧
      ∀ (r : Row) (pr : List String), mom_select [r] pr = [] := by
  constructor
  · have hsel : fcf_select dfs prev ≠ [] := fcf_select_ne_nil dfs prev hdf
    have hfin : fcfFinals univ (fcf_select dfs prev) ≠ [] := by
      intro h
      exact hsel (List.length_eq_zero.mp
        (by simpa [fcfFinals, fcfCapped, fcfRaws] using congrArg List.length h))
    unfold momentumFCF_weights momentumFCF_tail
    rw [if_neg hdf, if_neg hcaps,
      if_neg (not_le.mpr (fcfCaps_sum_pos univ hcaps)), if_neg hraw,
      if_neg hcap]
    by_cases hren : 0 < ((fcfFinals univ (fcf_select dfs prev)).map
          Prod.snd).sum ∧
        1 / 1000000 < |((fcfFinals univ (fcf_select dfs prev)).map
          Prod.snd).sum - 1|
    · rw [if_pos hren]
      refine ⟨_, rfl, ?_⟩
      intro h
      exact hfin (List.length_eq_zero.mp
        (by simpa using congrArg List.length h))
    · rw [if_neg hren]
      exact ⟨_, rfl, hfin⟩
  · intro r pr
    have ht : mom_target_count (sortByScoreDesc [r]).length = 0 := by
      have : sortByScoreDesc [r] = [r] := rfl
      rw [this]
      simp [mom_target_count, np_round_02, round_eq]
      norm_num
    unfold mom_select
    rw [ht]
    unfold selTickers
    simp [bufferAdd_nil_eligible, fillAdd, List.filter]

/-- A one-element scored cross-section: ticker A, market cap 1, combined
score 1. -/
def rowA : Row := ⟨"A", some 1, 1⟩

/-- Witness for C10: on the single-row cross-section {A} with universe
cap {A: 1}, the FCF strategy's target count is max(1, round(0.2)) = 1,
the fill loop selects A, and a non-empty weight mapping is returned —
while the plain momentum strategy selects nothing on any single row. -/
theorem claim10_fcf_nonempty_selection_witness :
    ([rowA] : List Row) ≠ [] ∧ fcfCaps [("A", some 1)] ≠ [] ∧
      fcfTotalRaw (fcf_select [rowA] []) ≠ 0 ∧
      ((fcfCapped [("A", some 1)] (fcf_select [rowA] [])).map
        Prod.snd).sum ≠ 0 ∧
      (∃ ws, momentumFCF_weights [("A", some 1)] [rowA] [] = some ws ∧
        ws ≠ []) := by
  have hsel : fcf_select [rowA] [] = [rowA] := by
    norm_num +decide [fcf_select, selTickers, sortByScoreDesc, insertByScore,
      fillAdd, fcf_target_count, np_round_02, round_eq, rowA, List.filter]
  have h1 : ([rowA] : List Row) ≠ [] := by simp
  have h2 : fcfCaps [("A", some (1 : ℚ))] ≠ [] := by
    norm_num +decide [fcfCaps, List.filterMap]
  have h3 : fcfTotalRaw (fcf_select [rowA] []) ≠ 0 := by
    rw [hsel]
    norm_num [fcfTotalRaw, fcfRaws, rowA]
  have h4 : ((fcfCapped [("A", some 1)] (fcf_select [rowA] [])).map
      Prod.snd).sum ≠ 0 := by
    rw [hsel]
    norm_num +decide [fcfCapped, fcfRaws, fcfTotalRaw, fcfRefWeights,
      fcfCaps, lookupD, rowA, min_def, List.filterMap, List.find?]
  exact ⟨h1, h2, h3, h4,
    (claim10_fcf_nonempty_selection [("A", some 1)] [rowA] [] h1 h2 h3 h4).1⟩

end TradingAlgo
